import Mathlib

/-!
# Verification of the zustand-optimistic mutation engine

Shallow embedding of `src/lib/optimistic-engine.ts`: the patch model and path
utilities, the transaction builder, and the mutation queue with its
full-rebase rollback algorithm.  JavaScript strings are modelled as `List
Char`; JSON-shaped store values are modelled as trees of string-keyed
objects with atomic leaves (the object key order of JavaScript is abstracted
by keeping object entries sorted by key, which is the standard structural
view of deep equality).  The immer patch operations (`produceWithPatches`,
`applyPatches`) are external library code; they are modelled from the spec,
§3 and §4.A, as noted on each definition.
-/

/-- A JavaScript string: a list of characters. -/
abbrev JStr := List Char

/-- Object keys of JSON-shaped values. -/
abbrev JKey := JStr

mutual
/-- Modelled from the spec (§3): a tree-shaped JSON value, either an atomic
leaf (opaque payload, numbered) or an object with string keys.  Entries are
kept sorted by key so that structural equality of objects is plain equality. -/
inductive JVal where
  | atom : Nat → JVal
  | obj : JObj → JVal
  deriving DecidableEq, Repr

/-- The entry list of a JSON object: a sequence of key/value pairs. -/
inductive JObj where
  | nil : JObj
  | cons : JKey → JVal → JObj → JObj
  deriving DecidableEq, Repr
end

/-- Strict lexicographic order on keys, via the character order. -/
def keyLt : JKey → JKey → Bool
  | [], [] => false
  | [], _ :: _ => true
  | _ :: _, [] => false
  | a :: as, b :: bs =>
    if a < b then true
    else if b < a then false
    else keyLt as bs

/-- Look up a key in an object's entry list. -/
def objGet (k : JKey) : JObj → Option JVal
  | .nil => none
  | .cons k₁ v₁ t => if k = k₁ then some v₁ else objGet k t

/-- Write a key in an object's entry list, keeping entries sorted by key. -/
def objSet (k : JKey) (v : JVal) : JObj → JObj
  | .nil => .cons k v .nil
  | .cons k₁ v₁ t =>
    if k = k₁ then .cons k v t
    else if keyLt k k₁ then .cons k v (.cons k₁ v₁ t)
    else .cons k₁ v₁ (objSet k v t)

/-- Delete a key from an object's entry list. -/
def objDel (k : JKey) : JObj → JObj
  | .nil => .nil
  | .cons k₁ v₁ t => if k = k₁ then t else .cons k₁ v₁ (objDel k t)

theorem keyLt_irrefl (a : JKey) : keyLt a a = false := by
  induction a with
  | nil => rfl
  | cons c t ih => simp [keyLt, ih]

theorem keyLt_asymm {a b : JKey} (h : keyLt a b = true) : keyLt b a = false := by
  induction a generalizing b with
  | nil =>
    cases b with
    | nil => exact absurd h (by simp [keyLt])
    | cons c t => rfl
  | cons c t ih =>
    cases b with
    | nil => exact absurd h (by simp [keyLt])
    | cons c₁ t₁ =>
      rcases lt_trichotomy c c₁ with hc | hc | hc
      · simp [keyLt, hc, not_lt_of_gt hc]
      · subst hc
        simp only [keyLt, lt_irrefl, if_false] at h ⊢
        exact ih h
      · simp [keyLt, hc, not_lt_of_gt hc] at h

theorem keyLt_ne {a b : JKey} (h : keyLt a b = true) : a ≠ b := by
  intro he; subst he; rw [keyLt_irrefl] at h; exact absurd h (by simp)

theorem keyLt_trans {a b c : JKey} (h₁ : keyLt a b = true)
    (h₂ : keyLt b c = true) : keyLt a c = true := by
  induction a generalizing b c with
  | nil =>
    cases c with
    | nil =>
      cases b with
      | nil => exact h₁
      | cons d t => exact absurd h₂ (by simp [keyLt])
    | cons d t => rfl
  | cons d t ih =>
    cases b with
    | nil => exact absurd h₁ (by simp [keyLt])
    | cons d₁ t₁ =>
      cases c with
      | nil => exact absurd h₂ (by simp [keyLt])
      | cons d₂ t₂ =>
        rcases lt_trichotomy d d₁ with hd | hd | hd
        · rcases lt_trichotomy d₁ d₂ with he | he | he
          · simp [keyLt, lt_trans hd he]
          · subst he; simp [keyLt, hd]
          · simp only [keyLt, he, not_lt_of_gt he, if_true, if_false] at h₂
            exact absurd h₂ (by simp)
        · subst hd
          rcases lt_trichotomy d d₂ with he | he | he
          · simp [keyLt, he]
          · subst he
            simp only [keyLt, lt_irrefl, if_false] at h₁ h₂ ⊢
            exact ih h₁ h₂
          · simp only [keyLt, he, not_lt_of_gt he, if_true, if_false] at h₂
            exact absurd h₂ (by simp)
        · simp only [keyLt, hd, not_lt_of_gt hd, if_true, if_false] at h₁
          exact absurd h₁ (by simp)


theorem keyLt_total {a b : JKey} (h : a ≠ b) :
    keyLt a b = true ∨ keyLt b a = true := by
  induction a generalizing b with
  | nil =>
    cases b with
    | nil => exact absurd rfl h
    | cons c t => left; rfl
  | cons c t ih =>
    cases b with
    | nil => right; rfl
    | cons c₁ t₁ =>
      rcases lt_trichotomy c c₁ with hc | hc | hc
      · left; simp [keyLt, hc]
      · subst hc
        have ht : t ≠ t₁ := fun he => h (by rw [he])
        rcases ih ht with h₁ | h₁
        · left; simp [keyLt, h₁]
        · right; simp [keyLt, h₁]
      · right; simp [keyLt, hc, not_lt_of_gt hc]

theorem keyLt_of_ne_of_not_lt {a b : JKey} (hne : a ≠ b)
    (h : keyLt a b = false) : keyLt b a = true := by
  rcases keyLt_total hne with h₁ | h₁
  · rw [h₁] at h; exact absurd h (by simp)
  · exact h₁

-- ============================================================
-- Object-level lemmas
-- ============================================================

/-- Structural induction over object entry lists, with opaque values. -/
theorem JObj.ind {motive : JObj → Prop} (nil : motive .nil)
    (cons : ∀ k v t, motive t → motive (.cons k v t)) : ∀ l, motive l
  | .nil => nil
  | .cons k v t => cons k v t (JObj.ind nil cons t)

theorem objGet_objSet_self (k : JKey) (v : JVal) (l : JObj) :
    objGet k (objSet k v l) = some v := by
  induction l using JObj.ind with
  | nil => simp [objSet, objGet]
  | cons k₁ v₁ t ih =>
    by_cases h : k = k₁
    · subst h; simp [objSet, objGet]
    · by_cases h₂ : keyLt k k₁ = true
      · simp [objSet, h, h₂, objGet]
      · simp [objSet, h, h₂, objGet, ih]

theorem objGet_objSet_ne {k k₁ : JKey} (h : k ≠ k₁) (v : JVal) (l : JObj) :
    objGet k (objSet k₁ v l) = objGet k l := by
  induction l using JObj.ind with
  | nil => simp [objSet, objGet, h]
  | cons k₂ v₂ t ih =>
    by_cases h₁ : k₁ = k₂
    · subst h₁; simp [objSet, objGet, h]
    · by_cases h₂ : keyLt k₁ k₂ = true
      · simp [objSet, h₁, h₂, objGet, h]
      · by_cases h₃ : k = k₂
        · subst h₃; simp [objSet, h₁, h₂, objGet]
        · simp [objSet, h₁, h₂, objGet, h₃, ih]

theorem objGet_objDel_ne {k k₁ : JKey} (h : k ≠ k₁) (l : JObj) :
    objGet k (objDel k₁ l) = objGet k l := by
  induction l using JObj.ind with
  | nil => simp [objDel]
  | cons k₂ v₂ t ih =>
    by_cases h₁ : k₁ = k₂
    · subst h₁; simp [objDel, objGet, h]
    · by_cases h₂ : k = k₂
      · subst h₂; simp [objDel, h₁, objGet]
      · simp [objDel, h₁, objGet, h₂, ih]

theorem objDel_objDel_comm {k k₁ : JKey} (h : k ≠ k₁) (l : JObj) :
    objDel k (objDel k₁ l) = objDel k₁ (objDel k l) := by
  have h₁ : k₁ ≠ k := fun he => h he.symm
  induction l using JObj.ind with
  | nil => simp [objDel]
  | cons k₂ v₂ t ih =>
    by_cases hA : k₁ = k₂
    · subst hA
      simp [objDel, h]
    · by_cases hB : k = k₂
      · subst hB
        simp [objDel, h₁]
      · simp [objDel, hA, hB, ih]

theorem objSet_objSet_comm {k k₁ : JKey} (h : k ≠ k₁) (v v₁ : JVal) (l : JObj) :
    objSet k v (objSet k₁ v₁ l) = objSet k₁ v₁ (objSet k v l) := by
  have h₁ : k₁ ≠ k := fun he => h he.symm
  induction l using JObj.ind with
  | nil =>
    rcases keyLt_total h with hlt | hlt
    · simp [objSet, h, h₁, hlt, keyLt_asymm hlt]
    · simp [objSet, h, h₁, hlt, keyLt_asymm hlt]
  | cons k₂ v₂ t ih =>
    by_cases hA : k₁ = k₂
    · subst hA
      rcases keyLt_total h with hlt | hlt
      · simp [objSet, h, h₁, hlt, keyLt_asymm hlt]
      · simp [objSet, h, h₁, hlt, keyLt_asymm hlt]
    · by_cases hB : keyLt k₁ k₂ = true
      · by_cases hk2 : k = k₂
        · subst hk2
          have hlt : keyLt k₁ k = true := hB
          simp [objSet, h, h₁, hA, hB, hlt, keyLt_asymm hlt]
        · by_cases hC : keyLt k k₁ = true
          · have hkk2 : keyLt k k₂ = true := keyLt_trans hC hB
            simp [objSet, h, h₁, hA, hB, hC, hk2, hkk2, keyLt_asymm hC]
          · have hlt : keyLt k₁ k = true := keyLt_of_ne_of_not_lt h (by simpa using hC)
            by_cases hD : keyLt k k₂ = true
            · simp [objSet, h, h₁, hA, hB, hC, hD, hk2, hlt]
            · simp [objSet, h, h₁, hA, hB, hC, hD, hk2, hlt]
      · by_cases hk2 : k = k₂
        · subst hk2
          have hlt : keyLt k k₁ = true :=
            keyLt_of_ne_of_not_lt hA (by simpa using hB)
          simp [objSet, h, h₁, hA, hB, hlt, keyLt_asymm hlt]
        · by_cases hD : keyLt k k₂ = true
          · have hlt : keyLt k₂ k₁ = true :=
              keyLt_of_ne_of_not_lt hA (by simpa using hB)
            have hkk1 : keyLt k k₁ = true := keyLt_trans hD hlt
            simp [objSet, h, h₁, hA, hB, hD, hkk1, keyLt_asymm hkk1, hk2]
          · simp [objSet, h, h₁, hA, hB, hD, hk2, ih]

/-- A key strictly below the head key of an entry list (if any). -/
def lbBelow (b : JKey) : JObj → Bool
  | .nil => true
  | .cons k _ _ => keyLt b k

/-- Keys of an object's entry list are strictly increasing. -/
def keysSorted : JObj → Bool
  | .nil => true
  | .cons k _ t => lbBelow k t && keysSorted t

theorem keysSorted_tail {k : JKey} {v : JVal} {t : JObj}
    (h : keysSorted (.cons k v t) = true) : keysSorted t = true := by
  simp only [keysSorted, Bool.and_eq_true] at h
  exact h.2

theorem keysSorted_head_lt {k k₁ : JKey} {v v₁ : JVal} {t : JObj}
    (h : keysSorted (.cons k v (.cons k₁ v₁ t)) = true) : keyLt k k₁ = true := by
  simp only [keysSorted, lbBelow, Bool.and_eq_true] at h
  exact h.1

theorem objSet_objDel_comm {k k₁ : JKey} (h : k ≠ k₁) (v : JVal) {l : JObj}
    (hs : keysSorted l = true) :
    objSet k v (objDel k₁ l) = objDel k₁ (objSet k v l) := by
  have h₁ : k₁ ≠ k := fun he => h he.symm
  induction l using JObj.ind with
  | nil => simp [objSet, objDel, h₁]
  | cons k₂ v₂ t ih =>
    by_cases hA : k₁ = k₂
    · subst hA
      by_cases hC : keyLt k k₁ = true
      · cases t with
        | nil => simp [objSet, objDel, h, h₁, hC]
        | cons k₃ v₃ t₃ =>
          have h13 : keyLt k₁ k₃ = true := keysSorted_head_lt hs
          have hk3 : keyLt k k₃ = true := keyLt_trans hC h13
          simp [objSet, objDel, h, h₁, hC, hk3, keyLt_ne hk3]
      · simp [objSet, objDel, h, h₁, hC]
    · by_cases hB : k = k₂
      · subst hB
        simp [objSet, objDel, hA, h₁]
      · by_cases hD : keyLt k k₂ = true
        · simp [objSet, objDel, hA, h₁, hB, hD]
        · simp [objSet, objDel, hA, h₁, hB, hD, ih (keysSorted_tail hs)]

theorem lbBelow_trans {b b₁ : JKey} {l : JObj} (h : keyLt b b₁ = true)
    (h₁ : lbBelow b₁ l = true) : lbBelow b l = true := by
  cases l with
  | nil => rfl
  | cons k v t => exact keyLt_trans h (by simpa [lbBelow] using h₁)

theorem lbBelow_objSet {b k : JKey} {l : JObj} (hl : lbBelow b l = true)
    (hk : keyLt b k = true) (v : JVal) : lbBelow b (objSet k v l) = true := by
  cases l with
  | nil => simpa [objSet, lbBelow]
  | cons k₁ v₁ t =>
    by_cases h₁ : k = k₁
    · simpa [objSet, h₁, lbBelow]
    · by_cases h₂ : keyLt k k₁ = true
      · simpa [objSet, h₁, h₂, lbBelow]
      · simpa [objSet, h₁, h₂, lbBelow] using hl

theorem lbBelow_objDel {b k : JKey} {l : JObj} (hl : lbBelow b l = true)
    (hs : keysSorted l = true) : lbBelow b (objDel k l) = true := by
  cases l with
  | nil => rfl
  | cons k₁ v₁ t =>
    by_cases h₁ : k = k₁
    · subst h₁
      simp only [objDel, if_pos rfl]
      simp only [keysSorted, Bool.and_eq_true] at hs
      exact lbBelow_trans (by simpa [lbBelow] using hl) hs.1
    · simpa [objDel, h₁, lbBelow] using hl

theorem keysSorted_objSet {k : JKey} (v : JVal) {l : JObj}
    (hs : keysSorted l = true) : keysSorted (objSet k v l) = true := by
  induction l using JObj.ind with
  | nil => simp [objSet, keysSorted, lbBelow]
  | cons k₁ v₁ t ih =>
    simp only [keysSorted, Bool.and_eq_true] at hs
    by_cases h₁ : k = k₁
    · subst h₁
      simp only [objSet, if_pos rfl, keysSorted, Bool.and_eq_true]
      exact ⟨hs.1, hs.2⟩
    · by_cases h₂ : keyLt k k₁ = true
      · simp only [objSet, if_neg h₁, if_pos h₂, keysSorted, Bool.and_eq_true, lbBelow]
        exact ⟨h₂, hs.1, hs.2⟩
      · have hk : keyLt k₁ k = true := keyLt_of_ne_of_not_lt h₁ (by simpa using h₂)
        simp only [objSet, if_neg h₁, if_neg h₂, keysSorted, Bool.and_eq_true]
        exact ⟨lbBelow_objSet hs.1 hk v, ih hs.2⟩

theorem keysSorted_objDel (k : JKey) {l : JObj}
    (hs : keysSorted l = true) : keysSorted (objDel k l) = true := by
  induction l using JObj.ind with
  | nil => rfl
  | cons k₁ v₁ t ih =>
    simp only [keysSorted, Bool.and_eq_true] at hs
    by_cases h₁ : k = k₁
    · simpa [objDel, h₁] using hs.2
    · simp only [objDel, if_neg h₁, keysSorted, Bool.and_eq_true]
      exact ⟨lbBelow_objDel hs.1 hs.2, ih hs.2⟩

theorem objSet_objSet_same (k : JKey) (x y : JVal) (l : JObj) :
    objSet k x (objSet k y l) = objSet k x l := by
  induction l using JObj.ind with
  | nil => simp [objSet]
  | cons k₁ v₁ t ih =>
    by_cases h₁ : k = k₁
    · simp [objSet, h₁]
    · by_cases h₂ : keyLt k k₁ = true
      · simp [objSet, h₁, h₂, keyLt_irrefl]
      · simp [objSet, h₁, h₂, ih]

-- ============================================================
-- Well-formed values
-- ============================================================

mutual
/-- A value is well formed when every object level is sorted by key. -/
def JVal.wfB : JVal → Bool
  | .atom _ => true
  | .obj l => keysSorted l && JObj.allWfB l

/-- All values of an entry list are well formed. -/
def JObj.allWfB : JObj → Bool
  | .nil => true
  | .cons _ v t => v.wfB && JObj.allWfB t
end

theorem allWfB_objGet {k : JKey} {l : JObj} {w : JVal}
    (hl : JObj.allWfB l = true) (hg : objGet k l = some w) : JVal.wfB w = true := by
  induction l using JObj.ind with
  | nil => simp [objGet] at hg
  | cons k₁ v₁ t ih =>
    simp only [JObj.allWfB, Bool.and_eq_true] at hl
    by_cases h₁ : k = k₁
    · simp only [objGet, if_pos h₁, Option.some.injEq] at hg
      exact hg ▸ hl.1
    · simp only [objGet, if_neg h₁] at hg
      exact ih hl.2 hg

theorem allWfB_objSet {k : JKey} {v : JVal} {l : JObj}
    (hl : JObj.allWfB l = true) (hv : JVal.wfB v = true) :
    JObj.allWfB (objSet k v l) = true := by
  induction l using JObj.ind with
  | nil => simp [objSet, JObj.allWfB, hv]
  | cons k₁ v₁ t ih =>
    simp only [JObj.allWfB, Bool.and_eq_true] at hl
    by_cases h₁ : k = k₁
    · simp [objSet, h₁, JObj.allWfB, hv, hl.2]
    · by_cases h₂ : keyLt k k₁ = true
      · simp [objSet, h₁, h₂, JObj.allWfB, hv, hl.1, hl.2]
      · simp [objSet, h₁, h₂, JObj.allWfB, hl.1, ih hl.2]

theorem allWfB_objDel (k : JKey) {l : JObj} (hl : JObj.allWfB l = true) :
    JObj.allWfB (objDel k l) = true := by
  induction l using JObj.ind with
  | nil => rfl
  | cons k₁ v₁ t ih =>
    simp only [JObj.allWfB, Bool.and_eq_true] at hl
    by_cases h₁ : k = k₁
    · simpa [objDel, h₁] using hl.2
    · simp [objDel, h₁, JObj.allWfB, hl.1, ih hl.2]

-- ============================================================
-- Patch model (modelled from the spec, §3 and §4.A)
-- ============================================================

/-- Patch operation kinds (`replace`, `add`, `remove`), per spec §3. -/
inductive POp where
  | add : POp
  | replace : POp
  | remove : POp
  deriving DecidableEq, Repr

/-- Modelled from the spec (§3): a structural edit carrying an operation
kind, a path of keys from the root, and a value payload (ignored for
`remove`).  Root patches (empty path) are not produced by recipes, which
mutate a draft in place. -/
structure Patch where
  op : POp
  path : List JKey
  value : JVal
  deriving DecidableEq, Repr

/-- Modelled from the spec (§4.A): the effect of a patch operation on the
parent object holding the patch's final key.  `add` writes the key,
`replace` and `remove` require the key to exist. -/
def opAct (op : POp) (k : JKey) (val : JVal) (l : JObj) : Option JObj :=
  match op with
  | .add => some (objSet k val l)
  | .replace =>
    match objGet k l with
    | some _ => some (objSet k val l)
    | none => none
  | .remove =>
    match objGet k l with
    | some _ => some (objDel k l)
    | none => none

/-- Modelled from the spec (§4.A): navigate a non-empty path to its parent
object and perform the operation there; fail when the path no longer exists
or the shape differs. -/
def applyAtPath (op : POp) (val : JVal) : JVal → List JKey → Option JVal
  | .obj l, [k] => (opAct op k val l).map .obj
  | .obj l, k :: k₂ :: ks =>
    match objGet k l with
    | none => none
    | some w => (applyAtPath op val w (k₂ :: ks)).map fun w₁ => .obj (objSet k w₁ l)
  | .atom _, _ :: _ => none
  | _, [] => none

/-- Apply one patch to a value (pure; `none` models `PatchApplyError`). -/
def applyPatch (v : JVal) (p : Patch) : Option JVal :=
  applyAtPath p.op p.value v p.path

/-- Modelled from the spec (§4.A): `applyPatches(value, patches)` applies a
patch sequence left to right, failing if any patch fails. -/
def applyPatches (v : JVal) : List Patch → Option JVal
  | [] => some v
  | p :: t =>
    match applyPatch v p with
    | none => none
    | some w => applyPatches w t

/-- Write or delete the slot of key `k`. -/
def slotSet (k : JKey) : Option JVal → JObj → JObj
  | some v => objSet k v
  | none => objDel k

/-- The transformation a patch performs on the slot addressed by the first
key of its (non-empty) path: input is the current slot content, output is
the new slot content, or `none` on patch failure. -/
def slotTrans (op : POp) (val : JVal) (ks : List JKey) (cur : Option JVal) :
    Option (Option JVal) :=
  match ks with
  | [] =>
    match op with
    | .add => some (some val)
    | .replace =>
      match cur with
      | some _ => some (some val)
      | none => none
    | .remove =>
      match cur with
      | some _ => some none
      | none => none
  | _ :: _ =>
    match cur with
    | some w => (applyAtPath op val w ks).map some
    | none => none

theorem applyAtPath_factor (op : POp) (val : JVal) (k : JKey) (ks : List JKey)
    (l : JObj) :
    applyAtPath op val (.obj l) (k :: ks) =
      (slotTrans op val ks (objGet k l)).map fun s => .obj (slotSet k s l) := by
  cases ks with
  | nil =>
    cases op <;> cases hg : objGet k l <;>
      simp [applyAtPath, opAct, slotTrans, slotSet, hg]
  | cons k₂ ks₂ =>
    cases hg : objGet k l with
    | none => simp [applyAtPath, slotTrans, hg]
    | some w =>
      simp only [applyAtPath, slotTrans, hg, Option.map_map]
      rfl

theorem keysSorted_slotSet (k : JKey) (s : Option JVal) {l : JObj}
    (hs : keysSorted l = true) : keysSorted (slotSet k s l) = true := by
  cases s with
  | none => exact keysSorted_objDel k hs
  | some v => exact keysSorted_objSet v hs

theorem objGet_slotSet_ne {k k₁ : JKey} (h : k ≠ k₁) (s : Option JVal)
    (l : JObj) : objGet k (slotSet k₁ s l) = objGet k l := by
  cases s with
  | none => exact objGet_objDel_ne h l
  | some v => exact objGet_objSet_ne h v l

theorem slotSet_comm {k k₁ : JKey} (h : k ≠ k₁) (s s₁ : Option JVal) {l : JObj}
    (hs : keysSorted l = true) :
    slotSet k s (slotSet k₁ s₁ l) = slotSet k₁ s₁ (slotSet k s l) := by
  have h₁ : k₁ ≠ k := fun he => h he.symm
  cases s with
  | none =>
    cases s₁ with
    | none => exact objDel_objDel_comm h l
    | some v₁ => exact (objSet_objDel_comm h₁ v₁ hs).symm
  | some v =>
    cases s₁ with
    | none => exact objSet_objDel_comm h v hs
    | some v₁ => exact objSet_objSet_comm h v v₁ l

theorem applyAtPath_wfB {op : POp} {val : JVal} (hval : JVal.wfB val = true) :
    ∀ (path : List JKey) (v u : JVal), JVal.wfB v = true →
      applyAtPath op val v path = some u → JVal.wfB u = true := by
  intro path
  induction path with
  | nil => intro v u _ h; simp [applyAtPath] at h
  | cons k ks ih =>
    intro v u hv h
    cases v with
    | atom n => simp [applyAtPath] at h
    | obj l =>
      rw [applyAtPath_factor] at h
      simp only [Option.map_eq_some'] at h
      obtain ⟨s, hst, hu⟩ := h
      simp only [JVal.wfB, Bool.and_eq_true] at hv
      have hwf : ∀ x, s = some x → JVal.wfB x = true := by
        intro x hx
        subst hx
        cases ks with
        | nil =>
          cases op with
          | add =>
            simp only [slotTrans, Option.some.injEq] at hst
            exact hst ▸ hval
          | replace =>
            cases hg : objGet k l with
            | none => rw [hg] at hst; simp [slotTrans] at hst
            | some w =>
              rw [hg] at hst
              simp only [slotTrans, Option.some.injEq] at hst
              exact hst ▸ hval
          | remove =>
            cases hg : objGet k l with
            | none => rw [hg] at hst; simp [slotTrans] at hst
            | some w => rw [hg] at hst; simp [slotTrans] at hst
        | cons k₂ ks₂ =>
          cases hg : objGet k l with
          | none => rw [hg] at hst; simp [slotTrans] at hst
          | some w =>
            rw [hg] at hst
            simp only [slotTrans, Option.map_eq_some', Option.some.injEq] at hst
            obtain ⟨u₁, hu₁, he⟩ := hst
            exact he ▸ ih w u₁ (allWfB_objGet hv.2 hg) hu₁
      subst hu
      simp only [JVal.wfB, Bool.and_eq_true]
      refine ⟨keysSorted_slotSet k s hv.1, ?_⟩
      cases s with
      | none => exact allWfB_objDel k hv.2
      | some x => exact allWfB_objSet hv.2 (hwf x rfl)

theorem applyPatch_wfB {v u : JVal} {p : Patch} (hv : JVal.wfB v = true)
    (hp : JVal.wfB p.value = true) (h : applyPatch v p = some u) :
    JVal.wfB u = true :=
  applyAtPath_wfB hp p.path v u hv h

theorem applyPatches_wfB : ∀ {P : List Patch} {v u : JVal},
    JVal.wfB v = true → (∀ p ∈ P, JVal.wfB p.value = true) →
    applyPatches v P = some u → JVal.wfB u = true := by
  intro P
  induction P with
  | nil => intro v u hv _ h; simp [applyPatches] at h; exact h ▸ hv
  | cons p t ih =>
    intro v u hv hP h
    simp only [applyPatches] at h
    cases hp : applyPatch v p with
    | none => rw [hp] at h; simp at h
    | some w =>
      rw [hp] at h
      exact ih (applyPatch_wfB hv (hP p (by simp)) hp)
        (fun q hq => hP q (by simp [hq])) h

-- ============================================================
-- Divergent paths commute
-- ============================================================

/-- Two patch paths lead into disjoint regions of the tree: neither is a
prefix of the other. -/
def Diverge (p q : List JKey) : Prop := ¬ p <+: q ∧ ¬ q <+: p

theorem diverge_decomp : ∀ {p q : List JKey}, Diverge p q →
    ∃ c a b p₁ q₁, a ≠ b ∧ p = c ++ a :: p₁ ∧ q = c ++ b :: q₁ := by
  intro p
  induction p with
  | nil => intro q h; exact absurd (List.nil_prefix) h.1
  | cons a p₁ ih =>
    intro q h
    cases q with
    | nil => exact absurd (List.nil_prefix) h.2
    | cons b q₁ =>
      by_cases hab : a = b
      · subst hab
        have h₁ : Diverge p₁ q₁ := by
          constructor
          · intro hp; exact h.1 (by simpa [List.cons_prefix_cons] using hp)
          · intro hp; exact h.2 (by simp [List.cons_prefix_cons, hp])
        obtain ⟨c, a₁, b₁, p₂, q₂, hne, hp, hq⟩ := ih h₁
        exact ⟨a :: c, a₁, b₁, p₂, q₂, hne, by simp [hp], by simp [hq]⟩
      · exact ⟨[], a, b, p₁, q₁, hab, rfl, rfl⟩

theorem slotTrans_cons_some {op : POp} {val : JVal} {ks : List JKey}
    {w : JVal} (h : ks ≠ []) :
    slotTrans op val ks (some w) = (applyAtPath op val w ks).map some := by
  cases ks with
  | nil => exact absurd rfl h
  | cons k kt => rfl

theorem slotTrans_cons_none {op : POp} {val : JVal} {ks : List JKey}
    (h : ks ≠ []) : slotTrans op val ks none = none := by
  cases ks with
  | nil => exact absurd rfl h
  | cons k kt => rfl

/-- Commutation square for two patch applications along divergent paths:
if the `q`-side application succeeds, then the `p`-side application either
fails both before and after it, or succeeds on both sides with results that
close the square. -/
theorem applyAtPath_square : ∀ (c : List JKey) {a b : JKey} {p₁ q₁ : List JKey}
    (hab : a ≠ b) (op₁ op₂ : POp) (val₁ val₂ : JVal) {v w : JVal},
    JVal.wfB v = true →
    applyAtPath op₂ val₂ v (c ++ b :: q₁) = some w →
    (applyAtPath op₁ val₁ v (c ++ a :: p₁) = none ∧
     applyAtPath op₁ val₁ w (c ++ a :: p₁) = none) ∨
    (∃ x y, applyAtPath op₁ val₁ v (c ++ a :: p₁) = some x ∧
            applyAtPath op₁ val₁ w (c ++ a :: p₁) = some y ∧
            applyAtPath op₂ val₂ x (c ++ b :: q₁) = some y) := by
  intro c
  induction c with
  | nil =>
    intro a b p₁ q₁ hab op₁ op₂ val₁ val₂ v w hv hq
    simp only [List.nil_append] at hq ⊢
    cases v with
    | atom n => simp [applyAtPath] at hq
    | obj l =>
      have hba : b ≠ a := fun he => hab he.symm
      simp only [JVal.wfB, Bool.and_eq_true] at hv
      rw [applyAtPath_factor] at hq
      simp only [Option.map_eq_some'] at hq
      obtain ⟨s₂, hs₂, hw⟩ := hq
      cases hT : slotTrans op₁ val₁ p₁ (objGet a l) with
      | none =>
        left
        constructor
        · rw [applyAtPath_factor, hT]; rfl
        · subst hw
          rw [applyAtPath_factor, objGet_slotSet_ne hab, hT]; rfl
      | some s₁ =>
        right
        refine ⟨.obj (slotSet a s₁ l), .obj (slotSet a s₁ (slotSet b s₂ l)), ?_, ?_, ?_⟩
        · rw [applyAtPath_factor, hT]; rfl
        · subst hw
          rw [applyAtPath_factor, objGet_slotSet_ne hab, hT]; rfl
        · rw [applyAtPath_factor, objGet_slotSet_ne hba, hs₂]
          show some (JVal.obj (slotSet b s₂ (slotSet a s₁ l))) = _
          rw [slotSet_comm hba s₂ s₁ hv.1]
  | cons k c₁ ih =>
    intro a b p₁ q₁ hab op₁ op₂ val₁ val₂ v w hv hq
    have hbq : c₁ ++ b :: q₁ ≠ [] := by simp
    have hap : c₁ ++ a :: p₁ ≠ [] := by simp
    simp only [List.cons_append] at hq ⊢
    cases v with
    | atom n => simp [applyAtPath] at hq
    | obj l =>
      simp only [JVal.wfB, Bool.and_eq_true] at hv
      rw [applyAtPath_factor] at hq
      cases hg : objGet k l with
      | none =>
        rw [hg, slotTrans_cons_none hbq] at hq
        simp at hq
      | some w₀ =>
        rw [hg, slotTrans_cons_some hbq] at hq
        simp only [Option.map_eq_some'] at hq
        obtain ⟨s, hs, hw⟩ := hq
        obtain ⟨w₁, hw₁, he⟩ := hs
        subst he
        have hw₀ : JVal.wfB w₀ = true := allWfB_objGet hv.2 hg
        rcases @ih a b p₁ q₁ hab op₁ op₂ val₁ val₂ w₀ w₁ hw₀ hw₁ with
          ⟨hn₁, hn₂⟩ | ⟨x₀, y₀, hx₀, hy₀, hxy⟩
        · left
          constructor
          · rw [applyAtPath_factor, hg, slotTrans_cons_some hap, hn₁]
            rfl
          · rw [← hw]
            show applyAtPath op₁ val₁ (.obj (objSet k w₁ l)) _ = none
            rw [applyAtPath_factor, objGet_objSet_self,
              slotTrans_cons_some hap, hn₂]
            rfl
        · right
          refine ⟨.obj (objSet k x₀ l), .obj (objSet k y₀ l), ?_, ?_, ?_⟩
          · rw [applyAtPath_factor, hg, slotTrans_cons_some hap, hx₀]
            rfl
          · rw [← hw]
            show applyAtPath op₁ val₁ (.obj (objSet k w₁ l)) _ =
              some (.obj (objSet k y₀ l))
            rw [applyAtPath_factor, objGet_objSet_self,
              slotTrans_cons_some hap, hy₀]
            simp [slotSet, objSet_objSet_same]
          · rw [applyAtPath_factor, objGet_objSet_self, slotTrans_cons_some hbq,
              hxy]
            simp [slotSet, objSet_objSet_same]

/-- Commutation square for two single patches with divergent paths. -/
theorem applyPatch_square {p q : Patch} (hd : Diverge p.path q.path)
    {v w : JVal} (hv : JVal.wfB v = true) (hq : applyPatch v q = some w) :
    (applyPatch v p = none ∧ applyPatch w p = none) ∨
    (∃ x y, applyPatch v p = some x ∧ applyPatch w p = some y ∧
            applyPatch x q = some y) := by
  obtain ⟨c, a, b, p₁, q₁, hab, hp, hqq⟩ := diverge_decomp hd
  unfold applyPatch at hq ⊢
  rw [hp, hqq]
  rw [hqq] at hq
  exact applyAtPath_square c hab p.op q.op p.value q.value hv hq

/-- Square for one patch against a patch list. -/
theorem applyPatch_list_square {p : Patch} : ∀ {Q : List Patch} {v w : JVal},
    (∀ q ∈ Q, Diverge p.path q.path) → JVal.wfB v = true →
    (∀ q ∈ Q, JVal.wfB q.value = true) →
    applyPatches v Q = some w →
    (applyPatch v p = none ∧ applyPatch w p = none) ∨
    (∃ x y, applyPatch v p = some x ∧ applyPatch w p = some y ∧
            applyPatches x Q = some y) := by
  intro Q
  induction Q with
  | nil =>
    intro v w _ _ _ hq
    simp only [applyPatches, Option.some.injEq] at hq
    subst hq
    cases hp : applyPatch v p with
    | none => exact Or.inl ⟨rfl, rfl⟩
    | some x => exact Or.inr ⟨x, x, rfl, rfl, rfl⟩
  | cons q Q₁ ih =>
    intro v w hd hv hQ hq
    simp only [applyPatches] at hq
    cases hq₀ : applyPatch v q with
    | none => rw [hq₀] at hq; simp at hq
    | some w₀ =>
      rw [hq₀] at hq
      have hw₀ : JVal.wfB w₀ = true :=
        applyPatch_wfB hv (hQ q (by simp)) hq₀
      rcases applyPatch_square (hd q (by simp)) hv hq₀ with
        ⟨hn₁, hn₂⟩ | ⟨x, y₀, hx, hy₀, hxy⟩
      · rcases ih (fun q₁ h₁ => hd q₁ (by simp [h₁])) hw₀
          (fun q₁ h₁ => hQ q₁ (by simp [h₁])) hq with ⟨_, hn⟩ | ⟨x, y, hx, _, _⟩
        · exact Or.inl ⟨hn₁, hn⟩
        · rw [hn₂] at hx; simp at hx
      · rcases ih (fun q₁ h₁ => hd q₁ (by simp [h₁])) hw₀
          (fun q₁ h₁ => hQ q₁ (by simp [h₁])) hq with ⟨hn, _⟩ | ⟨x₁, y, hx₁, hy, hxy₁⟩
        · rw [hy₀] at hn; simp at hn
        · rw [hy₀] at hx₁
          injection hx₁ with hx₁
          subst hx₁
          refine Or.inr ⟨x, y, hx, hy, ?_⟩
          simp only [applyPatches, hxy]
          exact hxy₁

/-- Square for two patch lists whose paths pairwise diverge: applying `Q`
first commutes with applying `P`, both in success and in failure. -/
theorem applyPatches_square : ∀ {P Q : List Patch} {v w : JVal},
    (∀ p ∈ P, ∀ q ∈ Q, Diverge p.path q.path) → JVal.wfB v = true →
    (∀ p ∈ P, JVal.wfB p.value = true) → (∀ q ∈ Q, JVal.wfB q.value = true) →
    applyPatches v Q = some w →
    (applyPatches v P = none ∧ applyPatches w P = none) ∨
    (∃ x y, applyPatches v P = some x ∧ applyPatches w P = some y ∧
            applyPatches x Q = some y) := by
  intro P
  induction P with
  | nil =>
    intro Q v w _ _ _ _ hq
    exact Or.inr ⟨v, w, rfl, rfl, hq⟩
  | cons p P₁ ih =>
    intro Q v w hd hv hP hQ hq
    rcases applyPatch_list_square (fun q h₁ => hd p (by simp) q h₁) hv hQ hq with
      ⟨hn₁, hn₂⟩ | ⟨x, y, hx, hy, hxy⟩
    · left
      constructor
      · simp only [applyPatches, hn₁]
      · simp only [applyPatches, hn₂]
    · have hx' : JVal.wfB x = true := applyPatch_wfB hv (hP p (by simp)) hx
      rcases ih (fun p₁ h₁ q h₂ => hd p₁ (by simp [h₁]) q h₂) hx'
        (fun p₁ h₁ => hP p₁ (by simp [h₁])) hQ hxy with
        ⟨hn₁, hn₂⟩ | ⟨x₁, y₁, hx₁, hy₁, hxy₁⟩
      · left
        constructor
        · simp only [applyPatches, hx, hn₁]
        · simp only [applyPatches, hy, hn₂]
      · right
        refine ⟨x₁, y₁, ?_, ?_, hxy₁⟩
        · simp only [applyPatches, hx, hx₁]
        · simp only [applyPatches, hy, hy₁]

-- ============================================================
-- Path utilities (source lines 76-95)
-- ============================================================

/-- The separator used by the source to join path segments. -/
def dotChar : Char := '.'

/-- JavaScript `array.join(".")` over path segments. -/
def joinDot : List JStr → JStr
  | [] => []
  | [s] => s
  | s :: t => s ++ dotChar :: joinDot t

/-- The depth-two entity path of one patch (source line 79-80):
`patch.path.slice(0, min(len, 2)).join(".")`. -/
def entityPath (p : Patch) : JStr := joinDot (p.path.take 2)

/-- Embeds `extractAffectedPaths` (source lines 76-84): the set of entity
paths of the patches, in first-insertion order. -/
def extractAffectedPaths (patches : List Patch) : List JStr :=
  patches.foldl
    (fun acc p => if entityPath p ∈ acc then acc else acc ++ [entityPath p]) []

/-- The per-pair conflict test of `hasPathConflict` (source line 89):
`a === b || a.startsWith(b + ".") || b.startsWith(a + ".")`. -/
def conflictPair (a b : JStr) : Bool :=
  a == b || (b ++ [dotChar]).isPrefixOf a || (a ++ [dotChar]).isPrefixOf b

/-- Embeds `hasPathConflict` (source lines 86-95). -/
def hasPathConflict (pathsA pathsB : List JStr) : Bool :=
  pathsA.any fun a => pathsB.any fun b => conflictPair a b

theorem mem_extractAffectedPaths_aux {p : Patch} :
    ∀ (l : List Patch) (acc : List JStr), entityPath p ∈ acc ∨ p ∈ l →
      entityPath p ∈ l.foldl
        (fun acc q => if entityPath q ∈ acc then acc else acc ++ [entityPath q])
        acc := by
  intro l
  induction l with
  | nil =>
    intro acc h
    rcases h with h | h
    · exact h
    · simp at h
  | cons q t ih =>
    intro acc h
    simp only [List.foldl_cons]
    rcases h with h | h
    · refine ih _ (Or.inl ?_)
      by_cases he : entityPath q ∈ acc
      · simpa [he]
      · simp [he, h]
    · rcases List.mem_cons.mp h with h | h
      · refine ih _ (Or.inl ?_)
        rw [h]
        by_cases he : entityPath q ∈ acc
        · simpa [he]
        · simp [he]
      · exact ih _ (Or.inr h)

theorem mem_extractAffectedPaths {p : Patch} {l : List Patch} (h : p ∈ l) :
    entityPath p ∈ extractAffectedPaths l :=
  mem_extractAffectedPaths_aux l [] (Or.inr h)

theorem hasPathConflict_false {A B : List JStr}
    (h : hasPathConflict A B = false) {a b : JStr} (ha : a ∈ A) (hb : b ∈ B) :
    conflictPair a b = false := by
  simp only [hasPathConflict, List.any_eq_false] at h
  have h₁ : (B.any fun b => conflictPair a b) = false :=
    Bool.eq_false_iff.mpr (h a ha)
  simp only [List.any_eq_false] at h₁
  exact Bool.eq_false_iff.mpr (h₁ b hb)

theorem entity_rel_of_prefix : ∀ {p q : List JKey}, p ≠ [] → p <+: q →
    joinDot (p.take 2) = joinDot (q.take 2) ∨
    (joinDot (p.take 2) ++ [dotChar]) <+: joinDot (q.take 2) := by
  intro p q hp hpre
  obtain ⟨r, hr⟩ := hpre
  subst hr
  cases p with
  | nil => exact absurd rfl hp
  | cons k p₁ =>
    cases p₁ with
    | nil =>
      cases r with
      | nil => exact Or.inl rfl
      | cons k₂ r₁ =>
        right
        show (joinDot [k] ++ [dotChar]) <+: joinDot [k, k₂]
        show (k ++ [dotChar]) <+: (k ++ dotChar :: joinDot [k₂])
        rw [show dotChar :: joinDot [k₂] = [dotChar] ++ k₂ from rfl,
          ← List.append_assoc]
        exact List.prefix_append _ _
    | cons k₂ p₂ => exact Or.inl rfl

theorem diverge_of_conflictPair_false {p q : List JKey} (hp : p ≠ [])
    (hq : q ≠ [])
    (h : conflictPair (joinDot (p.take 2)) (joinDot (q.take 2)) = false) :
    Diverge p q := by
  constructor
  · intro hpre
    rcases entity_rel_of_prefix hp hpre with he | he
    · have ht : conflictPair (joinDot (p.take 2)) (joinDot (q.take 2)) = true := by
        simp [conflictPair, he]
      rw [h] at ht
      exact absurd ht (by simp)
    · have ht : conflictPair (joinDot (p.take 2)) (joinDot (q.take 2)) = true := by
        simp [conflictPair, List.isPrefixOf_iff_prefix, he]
      rw [h] at ht
      exact absurd ht (by simp)
  · intro hpre
    rcases entity_rel_of_prefix hq hpre with he | he
    · have ht : conflictPair (joinDot (p.take 2)) (joinDot (q.take 2)) = true := by
        simp [conflictPair, he.symm]
      rw [h] at ht
      exact absurd ht (by simp)
    · have ht : conflictPair (joinDot (p.take 2)) (joinDot (q.take 2)) = true := by
        simp [conflictPair, List.isPrefixOf_iff_prefix, he]
      rw [h] at ht
      exact absurd ht (by simp)

/-- Non-conflicting affected-path sets of two patch lists force pairwise
divergent patch paths (for patches with non-empty paths). -/
theorem diverge_of_hasPathConflict_false {P Q : List Patch}
    (h : hasPathConflict (extractAffectedPaths P) (extractAffectedPaths Q) = false)
    (hP : ∀ p ∈ P, p.path ≠ []) (hQ : ∀ q ∈ Q, q.path ≠ []) :
    ∀ p ∈ P, ∀ q ∈ Q, Diverge p.path q.path := by
  intro p hp q hq
  exact diverge_of_conflictPair_false (hP p hp) (hQ q hq)
    (hasPathConflict_false h (mem_extractAffectedPaths hp)
      (mem_extractAffectedPaths hq))

-- ============================================================
-- Mutation queue (source lines 23-164, 274-280)
-- ============================================================

/-- Embeds `MutationStatus` (source lines 23-28). -/
inductive MutationStatus where
  | pending : MutationStatus
  | inflight : MutationStatus
  | success : MutationStatus
  | failed : MutationStatus
  | rolledBack : MutationStatus
  deriving DecidableEq, Repr

/-- Embeds `StorePatchEntry` (source lines 30-33). -/
structure StorePatchEntry where
  patches : List Patch
  inversePatches : List Patch
  deriving DecidableEq, Repr

/-- Embeds `Mutation` (source lines 35-45).  Stores are identified by
number (the source keys its `Map` by store identity); the remote function
is external, its completion is delivered by the run driver; `actionName`
is omitted. -/
structure Mutation where
  id : Nat
  timestamp : Nat
  status : MutationStatus
  storePatches : List (Nat × StorePatchEntry)
  affectedPaths : List JStr
  retryCount : Nat
  maxRetries : Nat
  deriving DecidableEq, Repr

instance : Inhabited Mutation :=
  ⟨{ id := 0, timestamp := 0, status := .pending, storePatches := [],
     affectedPaths := [], retryCount := 0, maxRetries := 0 }⟩

/-- Embeds `MutationSnapshot` (source lines 47-56), `actionName` omitted. -/
structure MutationSnapshot where
  id : Nat
  timestamp : Nat
  status : MutationStatus
  patchCount : Nat
  affectedPaths : List JStr
  retryCount : Nat
  maxRetries : Nat
  deriving DecidableEq, Repr

/-- Embeds `toSnapshot` (source lines 101-116). -/
def toSnapshot (m : Mutation) : MutationSnapshot :=
  { id := m.id, timestamp := m.timestamp, status := m.status,
    patchCount := (m.storePatches.map fun se => se.2.patches.length).sum,
    affectedPaths := m.affectedPaths, retryCount := m.retryCount,
    maxRetries := m.maxRetries }

/-- The store bank: store identity → current value. -/
def Stores := Nat → JVal

/-- `store.setState(next)` on one store of the bank. -/
def setStore (σ : Stores) (s : Nat) (v : JVal) : Stores :=
  fun s₁ => if s₁ = s then v else σ s₁

/-- The engine state: the live queue (`queue`, by object identity), the
in-flight id set, the bounded history, the stores, and the heap of all
mutation objects ever enqueued (live or not — a retired mutation object is
still reachable from the pending remote-function continuation, exactly as
in the source where the closure holds the object reference). -/
structure EngState where
  queue : List Nat
  inflightIds : List Nat
  history : List MutationSnapshot
  stores : Stores
  objects : List (Nat × Mutation)

/-- Dereference a mutation object. -/
def getObj (st : EngState) (i : Nat) : Mutation :=
  (st.objects.lookup i).getD default

/-- In-place update of a mutation object (the heap cell and, through it,
the live queue entry). -/
def setObj (st : EngState) (m : Mutation) : EngState :=
  { st with objects := st.objects.map fun im => if im.1 = m.id then (im.1, m) else im }

/-- Embeds `maxHistory` (source line 126). -/
def maxHistory : Nat := 20

/-- Embeds `addToHistory` (source lines 153-158). -/
def addToHistory (snap : MutationSnapshot) (h : List MutationSnapshot) :
    List MutationSnapshot :=
  let h₁ := snap :: h
  if maxHistory < h₁.length then h₁.take maxHistory else h₁

/-- Embeds `hasPending` (source lines 142-146). -/
def hasPending (st : EngState) : Bool :=
  st.queue.any fun i =>
    (getObj st i).status == .pending || (getObj st i).status == .inflight

/-- The live mutations in enqueue order. -/
def liveMuts (st : EngState) : List Mutation := st.queue.map (getObj st)

/-- Observable effects of one engine turn: an `onQueueChange` notification
(carrying the live mutations and the history it is computed from), or an
`onMutationSuccess` / `onMutationError` callback. -/
inductive Ev where
  | notify : List Mutation → List MutationSnapshot → Ev
  | success : MutationSnapshot → Ev
  | error : MutationSnapshot → Ev
  deriving DecidableEq, Repr

/-- Embeds `notify` (source lines 148-151): the observer payload of a
notification is the live snapshots in enqueue order followed by history. -/
def notifyEv (st : EngState) : Ev := .notify (liveMuts st) st.history

/-- The snapshot list passed to `onQueueChange` (source line 149). -/
def notifyPayload : Ev → List MutationSnapshot
  | .notify live hist => live.map toSnapshot ++ hist
  | _ => []

/-- Start of `executeMutation` (source lines 175-178): mark in-flight. -/
def dispatchStart (st : EngState) (i : Nat) : EngState :=
  let m := getObj st i
  let st₁ := setObj st { m with status := .inflight }
  { st₁ with inflightIds := st₁.inflightIds.insert i }

/-- Embeds `processNext` (source lines 166-173): dispatch every pending
mutation not already in flight (one notification each). -/
def processNext (st : EngState) : EngState × List Ev :=
  let ids := st.queue.filter fun i =>
    ((getObj st i).status == .pending) && !(st.inflightIds.contains i)
  ids.foldl
    (fun acc i =>
      let st₁ := dispatchStart acc.1 i
      (st₁, acc.2 ++ [notifyEv st₁]))
    (st, [])

/-- Embeds `enqueue` (source lines 160-164). -/
def enqueue (st : EngState) (m : Mutation) : EngState × List Ev :=
  let st₁ := { st with objects := st.objects ++ [(m.id, m)],
                       queue := st.queue ++ [m.id] }
  let p := processNext st₁
  (p.1, notifyEv st₁ :: p.2)

/-- The success continuation of `executeMutation` (source lines 181-188):
runs when the remote function resolves, whether or not the mutation is
still live. -/
def resolveSuccess (st : EngState) (i : Nat) : EngState × List Ev :=
  let m₁ := { getObj st i with status := .success }
  let st₁ := setObj st m₁
  let st₂ := { st₁ with inflightIds := st₁.inflightIds.erase i,
                        history := addToHistory (toSnapshot m₁) st₁.history }
  let st₃ := { st₂ with queue := st₂.queue.filter fun j => j != i }
  (st₃, [notifyEv st₃, .success (toSnapshot m₁)])

/-- Embeds the remaining-mutation sort of `rollback` (source lines
226-228): sort by timestamp descending. -/
def insertByTsDesc (m : Mutation) : List Mutation → List Mutation
  | [] => [m]
  | m₁ :: t =>
    if m₁.timestamp < m.timestamp then m :: m₁ :: t
    else m₁ :: insertByTsDesc m t

def sortByTsDesc : List Mutation → List Mutation
  | [] => []
  | m :: t => insertByTsDesc m (sortByTsDesc t)

/-- The store keys of a mutation, in insertion order. -/
def mutKeys (m : Mutation) : List Nat := m.storePatches.map fun se => se.1

/-- Insertion-ordered set union (JavaScript `Set.add` iteration order). -/
def dedupAdd (acc : List Nat) (xs : List Nat) : List Nat :=
  xs.foldl (fun a s => if s ∈ a then a else a ++ [s]) acc

/-- The undo sweep of `rollback` for one store (source lines 239-249):
apply the inverse patches of each remaining mutation, newest first.  A
patch failure here is uncaught in the source (the exception escapes
`rollback`), modelled as `none`. -/
def undoRemaining (s : Nat) (v : JVal) : List Mutation → Option JVal
  | [] => some v
  | m :: t =>
    match m.storePatches.lookup s with
    | none => undoRemaining s v t
    | some e =>
      match applyPatches v e.inversePatches with
      | none => none
      | some v₁ => undoRemaining s v₁ t

/-- The redo sweep of `rollback` for one store (source lines 251-265):
re-apply forward patches oldest first; a mutation whose patches fail is
collected (it is marked `failed`, retired as `rolled-back`) and the sweep
continues. -/
def redoRemaining (s : Nat) : JVal → List Mutation → JVal × List Mutation
  | v, [] => (v, [])
  | v, m :: t =>
    match m.storePatches.lookup s with
    | none => redoRemaining s v t
    | some e =>
      match applyPatches v e.patches with
      | some v₁ => redoRemaining s v₁ t
      | none =>
        let r := redoRemaining s v t
        (r.1, m :: r.2)

/-- The per-failure bookkeeping of the redo sweep (source lines 256-264):
mark the object `failed`, drop its in-flight marker, record a
`rolled-back` snapshot. -/
def markFailed (st : EngState) (m : Mutation) : EngState :=
  let st₁ := setObj st { m with status := .failed }
  { st₁ with inflightIds := st₁.inflightIds.erase m.id,
             history := addToHistory { toSnapshot m with status := .rolledBack }
               st₁.history }

/-- The full per-store reconciliation of `rollback` (source lines
236-268): undo the remaining mutations newest first, undo the failed
mutation, redo the remaining oldest first collecting redo failures. -/
def storeRebase (failedM : Mutation) (remaining : List Mutation) (s : Nat)
    (v : JVal) : Option (JVal × List Mutation) :=
  match undoRemaining s v remaining with
  | none => none
  | some v₁ =>
    let v₂? := match failedM.storePatches.lookup s with
      | none => some v₁
      | some e => applyPatches v₁ e.inversePatches
    match v₂? with
    | none => none
    | some v₂ => some (redoRemaining s v₂ remaining.reverse)

/-- One store of the `rollback` loop: reconcile the store value, mark and
retire redo failures, write the store. -/
def rollbackStoreStep (failedM : Mutation) (remaining : List Mutation)
    (acc : Option (EngState × List Ev)) (s : Nat) : Option (EngState × List Ev) :=
  match acc with
  | none => none
  | some (stAcc, evs) =>
    match storeRebase failedM remaining s (stAcc.stores s) with
    | none => none
    | some (v₃, fails) =>
      let stAcc₁ := fails.foldl markFailed stAcc
      let evFails := fails.map fun m => Ev.error (toSnapshot { m with status := .failed })
      some ({ stAcc₁ with stores := setStore stAcc₁.stores s v₃ }, evs ++ evFails)

/-- Embeds `rollback` (source lines 220-272): multi-store full rebase. -/
def rollback (st : EngState) (failedM : Mutation) : Option (EngState × List Ev) :=
  let remaining := sortByTsDesc ((st.queue.map (getObj st)).filter
    fun m => (m.id != failedM.id) && (m.status != MutationStatus.failed))
  let allStores := remaining.foldl (fun acc m => dedupAdd acc (mutKeys m))
    (dedupAdd [] (mutKeys failedM))
  let afterStores := allStores.foldl (rollbackStoreStep failedM remaining)
    (some (st, []))
  match afterStores with
  | none => none
  | some (st₁, evs) =>
    let st₂ := { st₁ with
      queue := st₁.queue.filter fun i => (getObj st₁ i).status != MutationStatus.failed }
    some (st₂, evs ++ [notifyEv st₂])

/-- The failure continuation of `executeMutation` (source lines 189-214):
retry while budget remains, otherwise mark `failed`, roll back, retire as
`rolled-back`. -/
def resolveFailure (st : EngState) (i : Nat) : Option (EngState × List Ev) :=
  let m := getObj st i
  let m₁ := { m with retryCount := m.retryCount + 1 }
  if m₁.retryCount ≤ m₁.maxRetries then
    let st₁ := setObj st { m₁ with status := .pending }
    let st₂ := { st₁ with inflightIds := st₁.inflightIds.erase i }
    let p := processNext st₂
    some (p.1, notifyEv st₂ :: p.2)
  else
    let m₂ := { m₁ with status := .failed }
    let st₁ := setObj st m₂
    let st₂ := { st₁ with inflightIds := st₁.inflightIds.erase i }
    match rollback st₂ m₂ with
    | none => none
    | some (st₃, evs) =>
      let snap := { toSnapshot m₂ with status := MutationStatus.rolledBack }
      let st₄ := { st₃ with history := addToHistory snap st₃.history,
                            queue := st₃.queue.filter fun j => j != i }
      some (st₄, (notifyEv st₂ :: evs) ++ [notifyEv st₄, .error snap])

/-- Embeds `clear` (source lines 274-279): empties queue, history and
in-flight markers; mutation objects held by running remote functions
survive on the heap. -/
def clear (st : EngState) : EngState × List Ev :=
  let st₁ := { st with queue := ([] : List Nat), history := ([] : List MutationSnapshot),
                       inflightIds := ([] : List Nat) }
  (st₁, [notifyEv st₁])

/-- One driver action: a commit handing a mutation to `enqueue`, the
resolution or rejection of the remote function of mutation `i`, or a
`clear()` call. -/
inductive Act where
  | commit : Mutation → Act
  | ok : Nat → Act
  | fail : Nat → Act
  | clearQ : Act

/-- Run a sequence of driver actions, collecting observable events. -/
def runActs (st : EngState) : List Act → Option (EngState × List Ev)
  | [] => some (st, [])
  | a :: t =>
    let step? : Option (EngState × List Ev) :=
      match a with
      | .commit m => some (enqueue st m)
      | .ok i => some (resolveSuccess st i)
      | .fail i => resolveFailure st i
      | .clearQ => some (clear st)
    match step? with
    | none => none
    | some (st₁, evs) =>
      match runActs st₁ t with
      | none => none
      | some (st₂, evs₂) => some (st₂, evs ++ evs₂)

/-- The engine's initial state over a store bank. -/
def initSt (σ : Stores) : EngState :=
  { queue := [], inflightIds := [], history := [], stores := σ, objects := [] }

-- ============================================================
-- Transaction (source lines 286-449)
-- ============================================================

/-- Modelled from the spec (§4.A, §9): a recipe is an in-place mutator on
a copy-on-write draft; modelled as a sequence of draft edits — write a
value at a path, or delete the key at a path.  The draft root itself
cannot be replaced. -/
inductive Cmd where
  | setPath : List JKey → JVal → Cmd
  | delPath : List JKey → Cmd
  deriving DecidableEq, Repr

/-- The slot a (non-empty) path addresses: `none` when the parent chain is
missing or not an object (reading the draft would throw), otherwise the
current content of the addressed key. -/
def pathView (v : JVal) : List JKey → Option (Option JVal)
  | [] => none
  | [k] =>
    match v with
    | .obj l => some (objGet k l)
    | .atom _ => none
  | k :: k₂ :: ks =>
    match v with
    | .obj l =>
      match objGet k l with
      | some w => pathView w (k₂ :: ks)
      | none => none
    | .atom _ => none

/-- Modelled from the spec (§4.A): one draft edit, yielding the next value
and the forward/inverse patches it contributes.  An edit that changes
nothing contributes no patch. -/
def runCmd (v : JVal) : Cmd → Option (JVal × List Patch × List Patch)
  | .setPath p x =>
    match pathView v p with
    | none => none
    | some (some old) =>
      if old = x then some (v, [], [])
      else
        match applyPatch v ⟨.replace, p, x⟩ with
        | none => none
        | some v₁ => some (v₁, [⟨.replace, p, x⟩], [⟨.replace, p, old⟩])
    | some none =>
      match applyPatch v ⟨.add, p, x⟩ with
      | none => none
      | some v₁ => some (v₁, [⟨.add, p, x⟩], [⟨.remove, p, .atom 0⟩])
  | .delPath p =>
    match pathView v p with
    | none => none
    | some none => some (v, [], [])
    | some (some old) =>
      match applyPatch v ⟨.remove, p, .atom 0⟩ with
      | none => none
      | some v₁ => some (v₁, [⟨.remove, p, .atom 0⟩], [⟨.add, p, old⟩])

/-- Modelled from the spec (§4.A): `produceWithPatches(baseValue, recipe)`
returns the next value with the forward patch sequence (in edit order) and
the inverse patch sequence (in reverse edit order, so that applying it to
the next value restores the base).  A recipe with no effective change
returns the base value and two empty sequences. -/
def produceWithPatches (v : JVal) : List Cmd → Option (JVal × List Patch × List Patch)
  | [] => some (v, [], [])
  | c :: cs =>
    match runCmd v c with
    | none => none
    | some (v₁, ps, is) =>
      match produceWithPatches v₁ cs with
      | none => none
      | some (v₂, ps₂, is₂) => some (v₂, ps ++ ps₂, is₂ ++ is)

/-- Transaction misuse errors (spec §7) plus the two failure modes that
escape as exceptions: a crashing recipe, and a patch failure while
flushing deferred stages at commit. -/
inductive TxError where
  | noDefaultStore : TxError
  | closedTransaction : TxError
  | emptyTransaction : TxError
  | noMutation : TxError
  | recipeError : TxError
  | patchError : TxError
  deriving DecidableEq, Repr

/-- Embeds `SetRecord` (source lines 286-291). -/
structure SetRecord where
  store : Nat
  patches : List Patch
  inversePatches : List Patch
  flushed : Bool
  deriving DecidableEq, Repr

/-- Embeds the `Transaction` fields (source lines 300-315); the remote
function is tracked by presence only. -/
structure TxState where
  records : List SetRecord
  workingStates : List (Nat × JVal)
  hasRemoteFn : Bool
  committed : Bool
  defaultStore : Option Nat
  deriving DecidableEq, Repr

/-- A fresh transaction (source constructor, lines 308-315). -/
def newTx (defaultStore : Option Nat) : TxState :=
  { records := [], workingStates := [], hasRemoteFn := false,
    committed := false, defaultStore := defaultStore }

/-- `tx.mutation = fn` (source lines 381-383). -/
def txAssignMutation (tx : TxState) : TxState := { tx with hasRemoteFn := true }

/-- Insertion-ordered map write (JavaScript `Map.set`). -/
def mapSet (k : Nat) (v : JVal) : List (Nat × JVal) → List (Nat × JVal)
  | [] => [(k, v)]
  | (k₁, v₁) :: t => if k = k₁ then (k, v) :: t else (k₁, v₁) :: mapSet k v t

/-- Insertion-ordered map delete (JavaScript `Map.delete`). -/
def mapDel (k : Nat) : List (Nat × JVal) → List (Nat × JVal)
  | [] => []
  | (k₁, v₁) :: t => if k = k₁ then t else (k₁, v₁) :: mapDel k t

/-- Embeds `Transaction.set` (source lines 329-379).  `target = none` is
the recipe-only overload `set(recipe)` (using the default store);
`target = some s` is `set(store, recipe, options)`.  The source resolves
the target store — and throws `NoDefaultStore` for the recipe-only
overload without a default — before checking whether the transaction is
already committed. -/
def txSet (tx : TxState) (σ : Stores) (target : Option Nat) (flush : Bool)
    (recipe : List Cmd) : Except TxError (TxState × Stores) :=
  let store? := match target with
    | some s => some s
    | none => tx.defaultStore
  match store? with
  | none => .error .noDefaultStore
  | some s =>
    if tx.committed then .error .closedTransaction
    else
      let base := match tx.workingStates.lookup s with
        | some w => w
        | none => σ s
      match produceWithPatches base recipe with
      | none => .error .recipeError
      | some (next, patches, inversePatches) =>
        if patches = [] then .ok (tx, σ)
        else if flush then
          .ok ({ tx with
                 records := tx.records ++ [⟨s, patches, inversePatches, true⟩],
                 workingStates := mapDel s tx.workingStates },
               setStore σ s next)
        else
          .ok ({ tx with
                 records := tx.records ++ [⟨s, patches, inversePatches, false⟩],
                 workingStates := mapSet s next tx.workingStates }, σ)

/-- Insertion-ordered entry-map write used when merging per-store patch
sequences at commit. -/
def mapSetE (k : Nat) (e : StorePatchEntry) :
    List (Nat × StorePatchEntry) → List (Nat × StorePatchEntry)
  | [] => [(k, e)]
  | (k₁, e₁) :: t => if k = k₁ then (k, e) :: t else (k₁, e₁) :: mapSetE k e t

/-- Embeds `Transaction.commit` (source lines 385-448): re-commit is a
no-op; an empty transaction and a missing remote function are errors;
deferred stages are flushed through `applyPatches` on the current store
value; per-store patch sequences are merged in stage order; the mutation
record is produced with status `pending` and retry count `0`. -/
def txCommit (tx : TxState) (σ : Stores) (idNum ts maxRetries : Nat) :
    Except TxError (TxState × Stores × Option Mutation) :=
  if tx.committed then .ok (tx, σ, none)
  else if tx.records.isEmpty then .error .emptyTransaction
  else if !tx.hasRemoteFn then .error .noMutation
  else
    let flushRes := tx.records.foldl
      (fun acc r =>
        match acc with
        | .error e => .error e
        | .ok (σ₁, recs) =>
          if r.flushed then .ok (σ₁, recs ++ [r])
          else
            match applyPatches (σ₁ r.store) r.patches with
            | none => .error TxError.patchError
            | some next =>
              .ok (setStore σ₁ r.store next, recs ++ [{ r with flushed := true }]))
      (Except.ok (σ, ([] : List SetRecord)))
    match flushRes with
    | .error e => .error e
    | .ok (σ₁, recs) =>
      let storePatches := recs.foldl
        (fun acc r =>
          match acc.lookup r.store with
          | some e => mapSetE r.store
              ⟨e.patches ++ r.patches, e.inversePatches ++ r.inversePatches⟩ acc
          | none => acc ++ [(r.store, ⟨r.patches, r.inversePatches⟩)])
        ([] : List (Nat × StorePatchEntry))
      let affected := storePatches.foldl
        (fun acc se => acc ++ extractAffectedPaths se.2.patches) []
      .ok ({ tx with committed := true, records := recs, workingStates := [] },
           σ₁,
           some { id := idNum, timestamp := ts, status := .pending,
                  storePatches := storePatches, affectedPaths := affected,
                  retryCount := 0, maxRetries := maxRetries })

-- ============================================================
-- Rollback fold lemmas
-- ============================================================

theorem lookup_cons_self {β : Type} (k : Nat) (v : β) (t : List (Nat × β)) :
    List.lookup k ((k, v) :: t) = some v := by
  simp [List.lookup]

theorem lookup_cons_ne {β : Type} {k k₁ : Nat} (h : k ≠ k₁) (v : β)
    (t : List (Nat × β)) : List.lookup k ((k₁, v) :: t) = List.lookup k t := by
  rw [List.lookup, show (k == k₁) = false from beq_eq_false_iff_ne.mpr h]

theorem lookup_isSome_of_mem_fst {s : Nat} {β : Type} :
    ∀ {l : List (Nat × β)}, (s ∈ l.map fun se => se.1) →
    ∃ e, l.lookup s = some e := by
  intro l
  induction l with
  | nil => intro h; simp at h
  | cons se t ih =>
    intro h
    by_cases he : s = se.1
    · exact ⟨se.2, by rw [show se = (se.1, se.2) from rfl, ← he, lookup_cons_self]⟩
    · rcases List.mem_map.mp h with ⟨pair, hmem, hfst⟩
      rcases List.mem_cons.mp hmem with h₁ | h₁
      · exact absurd (h₁ ▸ hfst).symm he
      · obtain ⟨e, hl⟩ := ih (List.mem_map.mpr ⟨pair, h₁, hfst⟩)
        exact ⟨e, by rw [show se = (se.1, se.2) from rfl, lookup_cons_ne he, hl]⟩

theorem lookup_isSome_of_mem_keys {s : Nat} {m : Mutation}
    (h : s ∈ mutKeys m) : ∃ e, m.storePatches.lookup s = some e :=
  lookup_isSome_of_mem_fst (by simpa [mutKeys] using h)

theorem mem_fst_of_lookup_isSome {s : Nat} {β : Type}
    : ∀ {l : List (Nat × β)} {e : β}, l.lookup s = some e →
      s ∈ l.map fun se => se.1 := by
  intro l
  induction l with
  | nil => intro e h; simp [List.lookup] at h
  | cons se t ih =>
    intro e h
    by_cases he : s = se.1
    · exact List.mem_map.mpr ⟨se, by simp, he.symm⟩
    · rw [show se = (se.1, se.2) from rfl, lookup_cons_ne he] at h
      simpa using Or.inr (by simpa using ih h)

theorem mem_keys_of_lookup_isSome {s : Nat} {m : Mutation} {e : StorePatchEntry}
    (h : m.storePatches.lookup s = some e) : s ∈ mutKeys m := by
  simpa [mutKeys] using mem_fst_of_lookup_isSome h

theorem dedupAdd_of_disjoint : ∀ {xs : List Nat} (acc : List Nat), xs.Nodup →
    (∀ x ∈ xs, x ∉ acc) → dedupAdd acc xs = acc ++ xs := by
  intro xs
  induction xs with
  | nil => intro acc _ _; simp [dedupAdd]
  | cons x t ih =>
    intro acc hnd hdis
    have hx : x ∉ acc := hdis x (by simp)
    show List.foldl _ (if x ∈ acc then acc else acc ++ [x]) t = _
    rw [if_neg hx]
    have := ih (acc ++ [x]) (List.nodup_cons.mp hnd).2 ?dis
    case dis =>
      intro y hy hmem
      rcases List.mem_append.mp hmem with h₁ | h₁
      · exact hdis y (by simp [hy]) h₁
      · exact (List.nodup_cons.mp hnd).1 ((List.mem_singleton.mp h₁) ▸ hy)
    simpa [dedupAdd] using this

theorem dedupAdd_nil_of_nodup {xs : List Nat} (h : xs.Nodup) :
    dedupAdd [] xs = xs := by
  simpa using dedupAdd_of_disjoint [] h (by simp)

/-- The store loop of `rollback` when every store reconciles without redo
failures: only the store bank changes. -/
theorem rebaseFold_ok {F : Mutation} {remaining : List Mutation} :
    ∀ (S : List Nat), S.Nodup →
    ∀ (st : EngState) (evs : List Ev) (res : Nat → JVal),
    (∀ s ∈ S, storeRebase F remaining s (st.stores s) = some (res s, [])) →
    S.foldl (rollbackStoreStep F remaining) (some (st, evs)) =
      some ({ st with stores := fun s => if s ∈ S then res s else st.stores s },
            evs) := by
  intro S
  induction S with
  | nil =>
    intro _ st evs res _
    simp only [List.foldl_nil, List.not_mem_nil, if_false]
  | cons s S₁ ih =>
    intro hnd st evs res hstep
    simp only [List.foldl_cons]
    rw [show rollbackStoreStep F remaining (some (st, evs)) s =
        some ({ st with stores := setStore st.stores s (res s) }, evs) by
      simp only [rollbackStoreStep, hstep s (by simp), List.foldl_nil,
        List.map_nil, List.append_nil]]
    rw [ih (List.nodup_cons.mp hnd).2 _ evs res ?hstep]
    case hstep =>
      intro s₁ h₁
      have hne : s₁ ≠ s := fun he => (List.nodup_cons.mp hnd).1 (he ▸ h₁)
      show storeRebase F remaining s₁ (setStore st.stores s (res s) s₁) =
        some (res s₁, [])
      rw [show setStore st.stores s (res s) s₁ = st.stores s₁ by
        simp [setStore, hne]]
      exact hstep s₁ (by simp [h₁])
    have hst : (fun s₁ => if s₁ ∈ S₁ then res s₁ else
        setStore st.stores s (res s) s₁) =
        fun s₁ => if s₁ ∈ s :: S₁ then res s₁ else st.stores s₁ := by
      funext s₁
      by_cases h₁ : s₁ ∈ S₁
      · simp [h₁]
      · by_cases h₂ : s₁ = s
        · subst h₂
          simp [h₁, setStore]
        · simp [h₁, h₂, setStore]
    exact congrArg (fun σf => some (({ st with stores := σf } : EngState), evs)) hst

theorem getObj_pair (i : Nat) (m : Mutation) (q infl : List Nat)
    (hist : List MutationSnapshot) (σ : Stores) :
    getObj { queue := q, inflightIds := infl, history := hist,
             stores := σ, objects := [(i, m)] } i = m := by
  simp [getObj, List.lookup]

theorem rollback_single (m₂ : Mutation) (i : Nat) (σ σpre : Stores)
    (hist : List MutationSnapshot) (infl : List Nat)
    (hstatus : m₂.status = .failed)
    (hkeys : (mutKeys m₂).Nodup)
    (hinv : ∀ s e, m₂.storePatches.lookup s = some e →
      applyPatches (σ s) e.inversePatches = some (σpre s))
    (hout : ∀ s, m₂.storePatches.lookup s = none → σpre s = σ s) :
    rollback { queue := [i], inflightIds := infl, history := hist,
               stores := σ, objects := [(i, m₂)] } m₂ =
      some ({ queue := [], inflightIds := infl, history := hist,
              stores := σpre, objects := [(i, m₂)] },
            [notifyEv { queue := [], inflightIds := infl, history := hist,
                        stores := σpre, objects := [(i, m₂)] }]) := by
  unfold rollback
  have hrem : sortByTsDesc
      ((([i].map (getObj { queue := [i],
                           inflightIds := infl,
                           history := hist,
                           stores := σ,
                           objects := [(i, m₂)] })).filter
        fun m => (m.id != m₂.id) && (m.status != MutationStatus.failed))) = [] := by
    simp [getObj_pair, List.filter, sortByTsDesc]
  rw [hrem]
  simp only [List.foldl_nil]
  rw [dedupAdd_nil_of_nodup hkeys]
  rw [rebaseFold_ok (mutKeys m₂) hkeys _ [] (fun s => σpre s) ?hstep]
  case hstep =>
    intro s hs
    obtain ⟨e, he⟩ := lookup_isSome_of_mem_keys hs
    simp only [storeRebase, undoRemaining, he, hinv s e he, redoRemaining]
  have hq : List.filter
      (fun j => (getObj { queue := [i],
                          inflightIds := infl,
                          history := hist,
                          stores := fun s => if s ∈ mutKeys m₂ then σpre s else σ s,
                          objects := [(i, m₂)] } j).status != MutationStatus.failed)
      [i] = [] := by
    simp [getObj_pair, List.filter, hstatus]
  simp only []
  rw [hq]
  have hσ : (fun s => if s ∈ mutKeys m₂ then σpre s else σ s) = σpre := by
    funext s
    by_cases hs : s ∈ mutKeys m₂
    · simp [hs]
    · rcases hl : m₂.storePatches.lookup s with _ | e
      · simp [hs, hout s hl]
      · exact absurd (mem_keys_of_lookup_isSome hl) hs
  rw [hσ]
  rfl

/-- The terminal branch of the failure continuation, as an equation. -/
theorem resolveFailure_eq_terminal (st : EngState) (i : Nat)
    (hcond : (getObj st i).maxRetries < (getObj st i).retryCount + 1) :
    resolveFailure st i =
      (let m₂ : Mutation := { getObj st i with
        retryCount := (getObj st i).retryCount + 1,
        status := MutationStatus.failed }
      let st₁ := setObj st m₂
      let st₂ := { st₁ with inflightIds := st₁.inflightIds.erase i }
      match rollback st₂ m₂ with
      | none => none
      | some (st₃, evs) =>
        let snap := { toSnapshot m₂ with status := MutationStatus.rolledBack }
        let st₄ := { st₃ with history := addToHistory snap st₃.history,
                              queue := st₃.queue.filter fun j => j != i }
        some (st₄, (notifyEv st₂ :: evs) ++ [notifyEv st₄, .error snap])) := by
  unfold resolveFailure
  rw [if_neg (Nat.not_le.mpr hcond)]

/-- C2 (helper form): terminally failing the only live mutation restores,
through its inverse patches, the pre-mutation value of every store, and
empties the live queue. -/
theorem resolveFailure_single_restores (f : Mutation) (σ σpre : Stores)
    (hist : List MutationSnapshot) (infl : List Nat)
    (hkeys : (mutKeys f).Nodup)
    (hretry : f.maxRetries ≤ f.retryCount)
    (hinv : ∀ s e, f.storePatches.lookup s = some e →
      applyPatches (σ s) e.inversePatches = some (σpre s))
    (hout : ∀ s, f.storePatches.lookup s = none → σpre s = σ s) :
    ∃ st₁ evs,
      resolveFailure
        { queue := [f.id], inflightIds := infl, history := hist,
          stores := σ, objects := [(f.id, f)] } f.id = some (st₁, evs) ∧
      (∀ s, st₁.stores s = σpre s) ∧ st₁.queue = [] := by
  have hgo : getObj
      { queue := [f.id], inflightIds := infl, history := hist,
        stores := σ, objects := [(f.id, f)] } f.id = f := getObj_pair _ _ _ _ _ _
  have hcond : (getObj
      { queue := [f.id], inflightIds := infl, history := hist,
        stores := σ, objects := [(f.id, f)] } f.id).maxRetries <
      (getObj
      { queue := [f.id], inflightIds := infl, history := hist,
        stores := σ, objects := [(f.id, f)] } f.id).retryCount + 1 := by
    rw [hgo]; omega
  rw [resolveFailure_eq_terminal _ f.id hcond]
  simp only [hgo, setObj, List.map, List.erase]
  simp only [show (f.id = ({ f with retryCount := f.retryCount + 1, status := MutationStatus.failed } : Mutation).id) = True by simp, if_true]
  rw [(rollback_single { f with retryCount := f.retryCount + 1, status := MutationStatus.failed } f.id σ σpre hist (List.erase infl f.id) rfl hkeys hinv hout : rollback _ _ = _)]
  exact ⟨_, _, rfl, fun s => rfl, rfl⟩

-- ============================================================
-- Per-store chains for rebase correctness
-- ============================================================

/-- All patches a mutation carries, forward and inverse. -/
def mutAllPatches (m : Mutation) : List Patch :=
  m.storePatches.bind fun se => se.2.patches ++ se.2.inversePatches

/-- Every patch of `a` diverges from every patch of `b`. -/
def DivergeM (a b : Mutation) : Prop :=
  ∀ p ∈ mutAllPatches a, ∀ q ∈ mutAllPatches b, Diverge p.path q.path

/-- All patch payloads of a mutation are well formed. -/
def MutWF (m : Mutation) : Prop :=
  ∀ p ∈ mutAllPatches m, JVal.wfB p.value = true

/-- Apply, store by store, the forward patches of a mutation sequence to
one store's value (skipping mutations that do not touch the store): the
value the store would have had the sequence been committed in order. -/
def storeChainApply (s : Nat) (v : JVal) : List Mutation → Option JVal
  | [] => some v
  | m :: t =>
    match m.storePatches.lookup s with
    | none => storeChainApply s v t
    | some e =>
      match applyPatches v e.patches with
      | none => none
      | some u => storeChainApply s u t

/-- One store's value evolves through a mutation sequence, each step
invertible at the state where it was applied (the `produceWithPatches`
contract of spec §4.A, recorded when the mutation was committed). -/
def StoreChainInv (s : Nat) : JVal → List Mutation → JVal → Prop
  | v, [], w => w = v
  | v, m :: t, w =>
    match m.storePatches.lookup s with
    | none => StoreChainInv s v t w
    | some e => ∃ u, applyPatches v e.patches = some u ∧
        applyPatches u e.inversePatches = some v ∧ StoreChainInv s u t w

theorem applyPatches_append (v : JVal) (P Q : List Patch) :
    applyPatches v (P ++ Q) =
      match applyPatches v P with
      | none => none
      | some w => applyPatches w Q := by
  induction P generalizing v with
  | nil => simp [applyPatches]
  | cons p t ih =>
    simp only [List.cons_append, applyPatches]
    cases applyPatch v p with
    | none => rfl
    | some w => exact ih w

theorem undoRemaining_append (s : Nat) (v : JVal) (A B : List Mutation) :
    undoRemaining s v (A ++ B) =
      match undoRemaining s v A with
      | none => none
      | some w => undoRemaining s w B := by
  induction A generalizing v with
  | nil => simp [undoRemaining]
  | cons m t ih =>
    simp only [List.cons_append, undoRemaining]
    cases m.storePatches.lookup s with
    | none => exact ih v
    | some e =>
      show (match applyPatches v e.inversePatches with
            | none => none
            | some v₁ => undoRemaining s v₁ (t ++ B)) =
        (match (match applyPatches v e.inversePatches with
                | none => none
                | some v₁ => undoRemaining s v₁ t) with
         | none => none
         | some w => undoRemaining s w B)
      cases applyPatches v e.inversePatches with
      | none => rfl
      | some v₁ => exact ih v₁

theorem storeChainInv_append {s : Nat} :
    ∀ {A : List Mutation} {B : List Mutation} {v w : JVal},
      StoreChainInv s v (A ++ B) w →
      ∃ u, StoreChainInv s v A u ∧ StoreChainInv s u B w := by
  intro A
  induction A with
  | nil => intro B v w h; exact ⟨v, rfl, h⟩
  | cons m t ih =>
    intro B v w h
    simp only [List.cons_append, StoreChainInv] at h ⊢
    cases hl : m.storePatches.lookup s with
    | none =>
      rw [hl] at h
      obtain ⟨u, h₁, h₂⟩ := ih h
      exact ⟨u, h₁, h₂⟩
    | some e =>
      rw [hl] at h
      obtain ⟨u₁, hp, hi, hrest⟩ := h
      obtain ⟨u, h₁, h₂⟩ := ih hrest
      exact ⟨u, ⟨u₁, hp, hi, h₁⟩, h₂⟩

theorem redoRemaining_eq_chain {s : Nat} :
    ∀ {l : List Mutation} {v τ : JVal}, storeChainApply s v l = some τ →
      redoRemaining s v l = (τ, []) := by
  intro l
  induction l with
  | nil =>
    intro v τ h
    simp only [storeChainApply, Option.some.injEq] at h
    simp [redoRemaining, h]
  | cons m t ih =>
    intro v τ h
    simp only [storeChainApply] at h
    simp only [redoRemaining]
    cases hl : m.storePatches.lookup s with
    | none => rw [hl] at h; exact ih h
    | some e =>
      rw [hl] at h
      have h₁ : (match applyPatches v e.patches with
                 | none => none
                 | some u => storeChainApply s u t) = some τ := h
      show (match applyPatches v e.patches with
            | some v₁ => redoRemaining s v₁ t
            | none => ((redoRemaining s v t).1, m :: (redoRemaining s v t).2)) =
        (τ, [])
      cases hp : applyPatches v e.patches with
      | none => rw [hp] at h₁; exact absurd h₁ (by simp)
      | some u =>
        rw [hp] at h₁
        exact ih h₁

/-- Mutations that do not touch a store leave its chain value unchanged. -/
theorem storeChainApply_of_untouched {s : Nat} :
    ∀ {l : List Mutation} (v : JVal), (∀ m ∈ l, m.storePatches.lookup s = none) →
      storeChainApply s v l = some v := by
  intro l
  induction l with
  | nil => intro v _; rfl
  | cons m t ih =>
    intro v h
    simp only [storeChainApply, h m (by simp)]
    exact ih v fun m₁ h₁ => h m₁ (by simp [h₁])

theorem storeChainInv_of_untouched {s : Nat} :
    ∀ {l : List Mutation} {v w : JVal}, (∀ m ∈ l, m.storePatches.lookup s = none) →
      StoreChainInv s v l w → w = v := by
  intro l
  induction l with
  | nil => intro v w _ h; exact h
  | cons m t ih =>
    intro v w h hch
    simp only [StoreChainInv, h m (by simp)] at hch
    exact ih (fun m₁ h₁ => h m₁ (by simp [h₁])) hch

theorem lookup_some_mem {β : Type} {s : Nat} :
    ∀ {l : List (Nat × β)} {e : β}, l.lookup s = some e → (s, e) ∈ l := by
  intro l
  induction l with
  | nil => intro e h; simp [List.lookup] at h
  | cons kv t ih =>
    intro e h
    by_cases he : s = kv.1
    · rw [show kv = (kv.1, kv.2) from rfl, ← he, lookup_cons_self] at h
      injection h with h
      subst h
      exact List.mem_cons.mpr (Or.inl (by rw [he]))
    · rw [show kv = (kv.1, kv.2) from rfl, lookup_cons_ne he] at h
      exact List.mem_cons_of_mem _ (ih h)

theorem patches_sub_mutAllPatches {m : Mutation} {s : Nat} {e : StorePatchEntry}
    (hl : m.storePatches.lookup s = some e) :
    (∀ p ∈ e.patches, p ∈ mutAllPatches m) ∧
    (∀ p ∈ e.inversePatches, p ∈ mutAllPatches m) := by
  have hmem := lookup_some_mem hl
  constructor
  · intro p hp
    exact List.mem_bind.mpr ⟨(s, e), hmem, by simp [hp]⟩
  · intro p hp
    exact List.mem_bind.mpr ⟨(s, e), hmem, by simp [hp]⟩

theorem chain_wf {s : Nat} : ∀ {l : List Mutation} {v w : JVal},
    JVal.wfB v = true → (∀ m ∈ l, MutWF m) → StoreChainInv s v l w →
    JVal.wfB w = true := by
  intro l
  induction l with
  | nil => intro v w hv _ h; exact h ▸ hv
  | cons m t ih =>
    intro v w hv hmwf h
    simp only [StoreChainInv] at h
    cases hl : m.storePatches.lookup s with
    | none => rw [hl] at h; exact ih hv (fun m₁ h₁ => hmwf m₁ (by simp [h₁])) h
    | some e =>
      rw [hl] at h
      obtain ⟨u, hp, _, hrest⟩ := h
      have hu : JVal.wfB u = true := applyPatches_wfB hv
        (fun p hp₁ => hmwf m (by simp) p ((patches_sub_mutAllPatches hl).1 p hp₁)) hp
      exact ih hu (fun m₁ h₁ => hmwf m₁ (by simp [h₁])) hrest

/-- Exact unwinding: applying the inverse patches of a chain newest-first
restores the chain's base value. -/
theorem unwind_exact {s : Nat} : ∀ {l : List Mutation} {v w : JVal},
    StoreChainInv s v l w → undoRemaining s w l.reverse = some v := by
  intro l
  induction l with
  | nil =>
    intro v w h
    have h₁ : w = v := h
    simp [undoRemaining, h₁]
  | cons m t ih =>
    intro v w h
    simp only [StoreChainInv] at h
    simp only [List.reverse_cons, undoRemaining_append]
    cases hl : m.storePatches.lookup s with
    | none =>
      rw [hl] at h
      rw [ih h]
      simp [undoRemaining, hl]
    | some e =>
      rw [hl] at h
      obtain ⟨u, _, hi, hrest⟩ := h
      rw [ih hrest]
      simp [undoRemaining, hl, hi]

/-- A forward/inverse patch pair that round-trips at `v` also round-trips
after any patches diverging from the pair have been applied. -/
theorem pinv_transport {v w : JVal} {P I R : List Patch}
    (hv : JVal.wfB v = true)
    (hPw : ∀ p ∈ P, JVal.wfB p.value = true)
    (hIw : ∀ p ∈ I, JVal.wfB p.value = true)
    (hRw : ∀ p ∈ R, JVal.wfB p.value = true)
    (hd : ∀ p ∈ P ++ I, ∀ r ∈ R, Diverge p.path r.path)
    (hR : applyPatches v R = some w)
    {a : JVal} (hP : applyPatches v P = some a) (hI : applyPatches a I = some v) :
    ∃ b, applyPatches w P = some b ∧ applyPatches b I = some w := by
  rcases applyPatches_square
      (fun p hp r hr => hd p (List.mem_append.mpr (Or.inl hp)) r hr)
      hv hPw hRw hR with ⟨hn, _⟩ | ⟨x, b, hx, hb, hxR⟩
  · rw [hP] at hn; exact absurd hn (by simp)
  · rw [hP] at hx
    injection hx with hx
    subst hx
    have ha : JVal.wfB a = true := applyPatches_wfB hv hPw hP
    rcases applyPatches_square
        (fun p hp r hr => hd p (List.mem_append.mpr (Or.inr hp)) r hr)
        ha hIw hRw hxR with ⟨hn, _⟩ | ⟨y, c, hy, hc, hyR⟩
    · rw [hI] at hn; exact absurd hn (by simp)
    · rw [hI] at hy
      injection hy with hy
      subst hy
      rw [hR] at hyR
      injection hyR with hyR
      subst hyR
      exact ⟨b, hb, hc⟩

theorem Diverge.symm {p q : List JKey} (h : Diverge p q) : Diverge q p :=
  ⟨h.2, h.1⟩

theorem storeChainApply_append (s : Nat) (v : JVal) (A B : List Mutation) :
    storeChainApply s v (A ++ B) =
      match storeChainApply s v A with
      | none => none
      | some w => storeChainApply s w B := by
  induction A generalizing v with
  | nil => simp [storeChainApply]
  | cons m t ih =>
    simp only [List.cons_append, storeChainApply]
    cases m.storePatches.lookup s with
    | none => exact ih v
    | some e =>
      show (match applyPatches v e.patches with
            | none => none
            | some u => storeChainApply s u (t ++ B)) =
        (match (match applyPatches v e.patches with
                | none => none
                | some u => storeChainApply s u t) with
         | none => none
         | some w => storeChainApply s w B)
      cases applyPatches v e.patches with
      | none => rfl
      | some u => exact ih u

theorem chainApply_of_chainInv {s : Nat} : ∀ {l : List Mutation} {v w : JVal},
    StoreChainInv s v l w → storeChainApply s v l = some w := by
  intro l
  induction l with
  | nil =>
    intro v w h
    have h₁ : w = v := h
    simp [storeChainApply, h₁]
  | cons m t ih =>
    intro v w h
    simp only [StoreChainInv] at h
    simp only [storeChainApply]
    cases hl : m.storePatches.lookup s with
    | none => rw [hl] at h; exact ih h
    | some e =>
      rw [hl] at h
      obtain ⟨u, hp, _, hrest⟩ := h
      simp only [hp]
      exact ih hrest

/-- Shifted unwinding: after a failed mutation's forward patches have been
applied on top of a chain it diverges from, undoing the chain newest-first
and then the failed mutation's inverse patches yields a state from which
re-applying the chain restores the pre-failure value. -/
theorem shifted_unwind {s : Nat} {Pf If : List Patch}
    (hPfw : ∀ p ∈ Pf, JVal.wfB p.value = true)
    (hIfw : ∀ p ∈ If, JVal.wfB p.value = true) :
    ∀ (pre : List Mutation) {σ0 vpre vmid : JVal},
      JVal.wfB σ0 = true →
      (∀ m ∈ pre, MutWF m) →
      (∀ m ∈ pre, ∀ p ∈ Pf ++ If, ∀ q ∈ mutAllPatches m, Diverge p.path q.path) →
      StoreChainInv s σ0 pre vpre →
      applyPatches vpre Pf = some vmid →
      applyPatches vmid If = some vpre →
      ∃ γ c, undoRemaining s vmid pre.reverse = some γ ∧
        applyPatches γ If = some c ∧
        storeChainApply s c pre = some vpre := by
  intro pre
  induction pre using List.reverseRecOn with
  | nil =>
    intro σ0 vpre vmid _ _ _ hch hPf hIf
    exact ⟨vmid, vpre, rfl, hIf, by
      have h₁ : vpre = σ0 := hch
      simp [storeChainApply]⟩
  | append_singleton l e ih =>
    intro σ0 vpre vmid hwf0 hmw hdiv hch hPf hIf
    obtain ⟨v₁, hl₁, he₁⟩ := storeChainInv_append hch
    have hvpre_wf : JVal.wfB vpre = true :=
      chain_wf hwf0 (fun m hm => hmw m hm) hch
    have hv₁_wf : JVal.wfB v₁ = true :=
      chain_wf hwf0 (fun m hm => hmw m (by simp [hm])) hl₁
    simp only [StoreChainInv] at he₁
    cases hle : e.storePatches.lookup s with
    | none =>
      rw [hle] at he₁
      have hv₁ : vpre = v₁ := he₁
      subst hv₁
      obtain ⟨γ, c, hund, hγ, hcha⟩ := ih hwf0
        (fun m hm => hmw m (by simp [hm]))
        (fun m hm => hdiv m (by simp [hm])) hl₁ hPf hIf
      refine ⟨γ, c, ?_, hγ, ?_⟩
      · rw [List.reverse_append, List.reverse_singleton, List.cons_append,
          List.nil_append, undoRemaining, hle]
        exact hund
      · rw [storeChainApply_append, hcha]
        simp [storeChainApply, hle]
    | some en =>
      rw [hle] at he₁
      obtain ⟨u, hpe, hie, hrest⟩ := he₁
      have hu : vpre = u := hrest
      subst hu
      have hPe_wf : ∀ p ∈ en.patches, JVal.wfB p.value = true := fun p hp =>
        hmw e (by simp) p ((patches_sub_mutAllPatches hle).1 p hp)
      have hIe_wf : ∀ p ∈ en.inversePatches, JVal.wfB p.value = true := fun p hp =>
        hmw e (by simp) p ((patches_sub_mutAllPatches hle).2 p hp)
      have hdie : ∀ p ∈ Pf ++ If, ∀ r ∈ en.inversePatches, Diverge p.path r.path :=
        fun p hp r hr =>
          hdiv e (by simp) p hp r ((patches_sub_mutAllPatches hle).2 r hr)
      obtain ⟨b, hb, hbI⟩ := pinv_transport hvpre_wf hPfw hIfw hIe_wf hdie hie hPf hIf
      have hmid : applyPatches vmid en.inversePatches = some b := by
        rcases applyPatches_square
            (fun p hp q hq =>
              (hdie q (List.mem_append.mpr (Or.inl hq)) p hp).symm)
            hvpre_wf hIe_wf hPfw hPf with
          ⟨hn, _⟩ | ⟨x, y, hx, hy, hxq⟩
        · rw [hie] at hn; exact absurd hn (by simp)
        · rw [hie] at hx
          injection hx with hx
          subst hx
          rw [hb] at hxq
          injection hxq with hxq
          subst hxq
          exact hy
      obtain ⟨γ, c, hund, hγ, hcha⟩ := ih hwf0
        (fun m hm => hmw m (by simp [hm]))
        (fun m hm => hdiv m (by simp [hm])) hl₁ hb hbI
      refine ⟨γ, c, ?_, hγ, ?_⟩
      · rw [List.reverse_append, List.reverse_singleton, List.cons_append,
          List.nil_append, undoRemaining, hle]
        show (match applyPatches vmid en.inversePatches with
              | none => none
              | some v₂ => undoRemaining s v₂ l.reverse) = some γ
        rw [hmid]
        exact hund
      · rw [storeChainApply_append, hcha]
        simp [storeChainApply, hle, hpe]

/-- Chain shift: a chain applied on top of a diverging patch list can be
replayed below it, ending one patch-list application short of the top. -/
theorem chain_shift {s : Nat} {Pf : List Patch}
    (hPfw : ∀ p ∈ Pf, JVal.wfB p.value = true) :
    ∀ (post : List Mutation) {z y w : JVal},
      JVal.wfB z = true →
      (∀ m ∈ post, MutWF m) →
      (∀ m ∈ post, ∀ p ∈ Pf, ∀ q ∈ mutAllPatches m, Diverge p.path q.path) →
      applyPatches z Pf = some y →
      StoreChainInv s y post w →
      ∃ τ, storeChainApply s z post = some τ ∧ applyPatches τ Pf = some w := by
  intro post
  induction post with
  | nil =>
    intro z y w hzw _ _ hzPf hch
    have h₁ : w = y := hch
    exact ⟨z, rfl, h₁ ▸ hzPf⟩
  | cons m t ih =>
    intro z y w hzw hmw hdiv hzPf hch
    simp only [StoreChainInv] at hch
    simp only [storeChainApply]
    cases hl : m.storePatches.lookup s with
    | none =>
      rw [hl] at hch
      exact ih hzw (fun m₁ h₁ => hmw m₁ (by simp [h₁]))
        (fun m₁ h₁ => hdiv m₁ (by simp [h₁])) hzPf hch
    | some e =>
      rw [hl] at hch
      obtain ⟨u, hp, _, hrest⟩ := hch
      have hPe_wf : ∀ p ∈ e.patches, JVal.wfB p.value = true := fun p hp₁ =>
        hmw m (by simp) p ((patches_sub_mutAllPatches hl).1 p hp₁)
      have hde : ∀ p ∈ e.patches, ∀ q ∈ Pf, Diverge p.path q.path :=
        fun p hp₁ q hq =>
          (hdiv m (by simp) q hq p ((patches_sub_mutAllPatches hl).1 p hp₁)).symm
      rcases applyPatches_square hde hzw hPe_wf hPfw hzPf with
        ⟨_, hn⟩ | ⟨x, y₁, hx, hy₁, hxPf⟩
      · rw [hp] at hn; exact absurd hn (by simp)
      · rw [hp] at hy₁
        injection hy₁ with hy₁
        subst hy₁
        have hxw : JVal.wfB x = true := applyPatches_wfB hzw hPe_wf hx
        obtain ⟨τ, hτ, hτPf⟩ := ih hxw (fun m₁ h₁ => hmw m₁ (by simp [h₁]))
          (fun m₁ h₁ => hdiv m₁ (by simp [h₁])) hxPf hrest
        refine ⟨τ, ?_, hτPf⟩
        show (match applyPatches z e.patches with
              | none => none
              | some u => storeChainApply s u t) = some τ
        rw [hx]
        exact hτ

/-- The reconciliation of one store, when the undo sweep succeeds: the
failed mutation touches the store. -/
theorem storeRebase_some {f : Mutation} {rem : List Mutation} {s : Nat}
    {v γ : JVal} {e : StorePatchEntry}
    (hu : undoRemaining s v rem = some γ)
    (hlf : f.storePatches.lookup s = some e) :
    storeRebase f rem s v =
      match applyPatches γ e.inversePatches with
      | none => none
      | some v₂ => some (redoRemaining s v₂ rem.reverse) := by
  unfold storeRebase
  rw [hu, hlf]

/-- The reconciliation of one store the failed mutation does not touch. -/
theorem storeRebase_none {f : Mutation} {rem : List Mutation} {s : Nat}
    {v γ : JVal}
    (hu : undoRemaining s v rem = some γ)
    (hlf : f.storePatches.lookup s = none) :
    storeRebase f rem s v = some (redoRemaining s γ rem.reverse) := by
  unfold storeRebase
  rw [hu, hlf]

/-- Per-store correctness of the full rebase: the reconciled value for a
store equals the value the store would have had the failed mutation never
been committed, and no surviving mutation fails its redo. -/
theorem storeRebase_correct {s : Nat} (f : Mutation) (pre post : List Mutation)
    {σ0 σn : JVal}
    (hwf0 : JVal.wfB σ0 = true)
    (hfw : MutWF f)
    (hmw : ∀ m ∈ pre ++ post, MutWF m)
    (hdiv : ∀ m ∈ pre ++ post, ∀ p ∈ mutAllPatches f, ∀ q ∈ mutAllPatches m,
      Diverge p.path q.path)
    (hchain : StoreChainInv s σ0 (pre ++ f :: post) σn) :
    ∃ τ, storeRebase f (post.reverse ++ pre.reverse) s σn = some (τ, []) ∧
      storeChainApply s σ0 (pre ++ post) = some τ := by
  obtain ⟨vpre, hpre, hfpost⟩ := storeChainInv_append hchain
  simp only [StoreChainInv] at hfpost
  have hvpre_wf : JVal.wfB vpre = true :=
    chain_wf hwf0 (fun m hm => hmw m (by simp [hm])) hpre
  cases hlf : f.storePatches.lookup s with
  | none =>
    rw [hlf] at hfpost
    have hpost : StoreChainInv s vpre post σn := hfpost
    have hundo : undoRemaining s σn (post.reverse ++ pre.reverse) = some σ0 := by
      rw [undoRemaining_append, unwind_exact hpost]
      exact unwind_exact hpre
    have hchAll : storeChainApply s σ0 (pre ++ post) = some σn := by
      rw [storeChainApply_append, chainApply_of_chainInv hpre]
      exact chainApply_of_chainInv hpost
    refine ⟨σn, ?_, hchAll⟩
    rw [storeRebase_none hundo hlf,
      show (post.reverse ++ pre.reverse).reverse = pre ++ post by simp,
      redoRemaining_eq_chain hchAll]
  | some ef =>
    rw [hlf] at hfpost
    obtain ⟨vmid, hPf, hIf, hpost⟩ := hfpost
    have hPfw : ∀ p ∈ ef.patches, JVal.wfB p.value = true := fun p hp =>
      hfw p ((patches_sub_mutAllPatches hlf).1 p hp)
    have hIfw : ∀ p ∈ ef.inversePatches, JVal.wfB p.value = true := fun p hp =>
      hfw p ((patches_sub_mutAllPatches hlf).2 p hp)
    obtain ⟨γ, c, hund, hγ, hchA⟩ := shifted_unwind hPfw hIfw pre hwf0
      (fun m hm => hmw m (by simp [hm]))
      (fun m hm p hp q hq => hdiv m (by simp [hm]) p
        (by
          rcases List.mem_append.mp hp with h₁ | h₁
          · exact (patches_sub_mutAllPatches hlf).1 p h₁
          · exact (patches_sub_mutAllPatches hlf).2 p h₁) q hq)
      hpre hPf hIf
    obtain ⟨τ, hτ, hτPf⟩ := chain_shift hPfw post hvpre_wf
      (fun m hm => hmw m (by simp [hm]))
      (fun m hm p hp q hq => hdiv m (by simp [hm]) p
        ((patches_sub_mutAllPatches hlf).1 p hp) q hq)
      hPf hpost
    have hundo : undoRemaining s σn (post.reverse ++ pre.reverse) = some γ := by
      rw [undoRemaining_append, unwind_exact hpost]
      exact hund
    have hchAll : storeChainApply s c (pre ++ post) = some τ := by
      rw [storeChainApply_append, hchA]
      exact hτ
    refine ⟨τ, ?_, ?_⟩
    · rw [storeRebase_some hundo hlf, hγ,
        show (post.reverse ++ pre.reverse).reverse = pre ++ post by simp]
      show some (redoRemaining s c (pre ++ post)) = some (τ, [])
      rw [redoRemaining_eq_chain hchAll]
    · rw [storeChainApply_append, chainApply_of_chainInv hpre]
      exact hτ

-- ============================================================
-- Global rollback assembly
-- ============================================================

instance : Inhabited JVal := ⟨.atom 0⟩

theorem insertByTsDesc_append_of_gt : ∀ {l : List Mutation} {m : Mutation},
    (∀ m₁ ∈ l, m.timestamp < m₁.timestamp) → insertByTsDesc m l = l ++ [m] := by
  intro l
  induction l with
  | nil => intro m _; rfl
  | cons m₁ t ih =>
    intro m h
    have h₁ : ¬ m₁.timestamp < m.timestamp := Nat.lt_asymm (h m₁ (by simp))
    simp only [insertByTsDesc, if_neg h₁, List.cons_append]
    rw [ih fun m₂ h₂ => h m₂ (by simp [h₂])]

theorem sortByTsDesc_of_increasing : ∀ {l : List Mutation},
    List.Pairwise (fun a b => a.timestamp < b.timestamp) l →
    sortByTsDesc l = l.reverse := by
  intro l
  induction l with
  | nil => intro _; rfl
  | cons m t ih =>
    intro h
    have h₁ := List.pairwise_cons.mp h
    simp only [sortByTsDesc, ih h₁.2, List.reverse_cons]
    exact insertByTsDesc_append_of_gt fun m₁ hm₁ =>
      h₁.1 m₁ (List.mem_reverse.mp hm₁)

theorem mem_dedupAdd {y : Nat} : ∀ {xs acc : List Nat},
    y ∈ dedupAdd acc xs ↔ y ∈ acc ∨ y ∈ xs := by
  intro xs
  induction xs with
  | nil => intro acc; simp [dedupAdd]
  | cons x t ih =>
    intro acc
    show y ∈ dedupAdd (if x ∈ acc then acc else acc ++ [x]) t ↔ _
    rw [ih]
    by_cases hx : x ∈ acc
    · simp only [if_pos hx]
      constructor
      · rintro (h | h)
        · exact Or.inl h
        · exact Or.inr (by simp [h])
      · rintro (h | h)
        · exact Or.inl h
        · rcases List.mem_cons.mp h with h | h
          · exact Or.inl (h ▸ hx)
          · exact Or.inr h
    · simp only [if_neg hx, List.mem_append, List.mem_singleton]
      constructor
      · rintro ((h | h) | h)
        · exact Or.inl h
        · exact Or.inr (by simp [h])
        · exact Or.inr (by simp [h])
      · rintro (h | h)
        · exact Or.inl (Or.inl h)
        · rcases List.mem_cons.mp h with h | h
          · exact Or.inl (Or.inr h)
          · exact Or.inr h

theorem dedupAdd_nodup : ∀ {xs acc : List Nat}, acc.Nodup →
    (dedupAdd acc xs).Nodup := by
  intro xs
  induction xs with
  | nil => intro acc h; exact h
  | cons x t ih =>
    intro acc h
    show (dedupAdd (if x ∈ acc then acc else acc ++ [x]) t).Nodup
    by_cases hx : x ∈ acc
    · rw [if_pos hx]; exact ih h
    · rw [if_neg hx]
      refine ih ?_
      simp [List.nodup_append, h, hx]

theorem foldl_dedupAdd_nodup : ∀ (l : List Mutation) {acc : List Nat},
    acc.Nodup → (l.foldl (fun a m => dedupAdd a (mutKeys m)) acc).Nodup := by
  intro l
  induction l with
  | nil => intro acc h; exact h
  | cons m t ih => intro acc h; exact ih (dedupAdd_nodup h)

theorem mem_foldl_dedupAdd {y : Nat} : ∀ {l : List Mutation} {acc : List Nat},
    y ∈ l.foldl (fun a m => dedupAdd a (mutKeys m)) acc ↔
      y ∈ acc ∨ ∃ m ∈ l, y ∈ mutKeys m := by
  intro l
  induction l with
  | nil => intro acc; simp
  | cons m t ih =>
    intro acc
    show y ∈ t.foldl _ (dedupAdd acc (mutKeys m)) ↔ _
    rw [ih]
    rw [mem_dedupAdd]
    constructor
    · rintro ((h | h) | ⟨m₁, h₁, h₂⟩)
      · exact Or.inl h
      · exact Or.inr ⟨m, by simp, h⟩
      · exact Or.inr ⟨m₁, by simp [h₁], h₂⟩
    · rintro (h | ⟨m₁, h₁, h₂⟩)
      · exact Or.inl (Or.inl h)
      · rcases List.mem_cons.mp h₁ with h₁ | h₁
        · exact Or.inl (Or.inr (h₁ ▸ h₂))
        · exact Or.inr ⟨m₁, h₁, h₂⟩

theorem lookup_none_of_not_mem_keys {s : Nat} {m : Mutation}
    (h : s ∉ mutKeys m) : m.storePatches.lookup s = none := by
  cases hl : m.storePatches.lookup s with
  | none => rfl
  | some e => exact absurd (mem_keys_of_lookup_isSome hl) h

theorem lookup_objectsOf : ∀ {ms : List Mutation},
    (ms.map Mutation.id).Nodup → ∀ {m : Mutation}, m ∈ ms →
    (ms.map fun m₁ => (m₁.id, m₁)).lookup m.id = some m := by
  intro ms
  induction ms with
  | nil => intro _ m hm; simp at hm
  | cons m₁ t ih =>
    intro hnd m hm
    have hnd₁ : m₁.id ∉ t.map Mutation.id ∧ (t.map Mutation.id).Nodup := by
      rw [List.map_cons] at hnd
      exact List.nodup_cons.mp hnd
    rcases List.mem_cons.mp hm with hm | hm
    · subst hm
      simp only [List.map_cons]
      exact lookup_cons_self m.id m _
    · have hne : m.id ≠ m₁.id := by
        intro he
        exact hnd₁.1 (he ▸ List.mem_map.mpr ⟨m, hm, rfl⟩)
      simp only [List.map_cons]
      rw [lookup_cons_ne hne]
      exact ih hnd₁.2 hm

theorem nodup_mid_ne {A B : List Mutation} {x : Mutation}
    (h : ((A ++ x :: B).map Mutation.id).Nodup) :
    ∀ m ∈ A ++ B, m.id ≠ x.id := by
  rw [List.map_append, List.map_cons] at h
  have h₁ : (x.id :: (A.map Mutation.id ++ B.map Mutation.id)).Nodup := by
    rw [List.nodup_middle] at h
    exact h
  intro m hm he
  refine (List.nodup_cons.mp h₁).1 ?_
  rw [← he, ← List.map_append]
  exact List.mem_map.mpr ⟨m, hm, rfl⟩

theorem pairwise_ts_erase_mid {A B : List Mutation} {x : Mutation}
    (h : List.Pairwise (fun a b => a.timestamp < b.timestamp) (A ++ x :: B)) :
    List.Pairwise (fun a b => a.timestamp < b.timestamp) (A ++ B) :=
  h.sublist ((List.sublist_cons_self x B).append_left A)

theorem rollback_scenario (pre post : List Mutation) (m₂ : Mutation)
    (σ0 σ : Stores) (hist : List MutationSnapshot) (infl : List Nat)
    (hwf0 : ∀ s, JVal.wfB (σ0 s) = true)
    (hids : ((pre ++ m₂ :: post).map Mutation.id).Nodup)
    (hts : List.Pairwise (fun a b => a.timestamp < b.timestamp)
      (pre ++ m₂ :: post))
    (hlive : ∀ m ∈ pre ++ post, m.status ≠ MutationStatus.failed)
    (hstat : m₂.status = .failed)
    (hfw : MutWF m₂)
    (hmw : ∀ m ∈ pre ++ post, MutWF m)
    (hdiv : ∀ m ∈ pre ++ post, ∀ p ∈ mutAllPatches m₂, ∀ q ∈ mutAllPatches m,
      Diverge p.path q.path)
    (hchain : ∀ s, StoreChainInv s (σ0 s) (pre ++ m₂ :: post) (σ s)) :
    ∃ σR,
      rollback
        { queue := (pre ++ m₂ :: post).map Mutation.id, inflightIds := infl,
          history := hist, stores := σ,
          objects := (pre ++ m₂ :: post).map fun m => (m.id, m) } m₂
      = some ({ queue := (pre ++ post).map Mutation.id, inflightIds := infl,
                history := hist, stores := σR,
                objects := (pre ++ m₂ :: post).map fun m => (m.id, m) },
              [notifyEv
                { queue := (pre ++ post).map Mutation.id, inflightIds := infl,
                  history := hist, stores := σR,
                  objects := (pre ++ m₂ :: post).map fun m => (m.id, m) }]) ∧
      ∀ s, storeChainApply s (σ0 s) (pre ++ post) = some (σR s) := by
  have hneq := nodup_mid_ne hids
  have hmap : ((pre ++ m₂ :: post).map Mutation.id).map
      (getObj { queue := (pre ++ m₂ :: post).map Mutation.id,
                inflightIds := infl, history := hist, stores := σ,
                objects := (pre ++ m₂ :: post).map fun m => (m.id, m) }) =
      pre ++ m₂ :: post := by
    rw [List.map_map]
    have h₁ : ∀ m ∈ pre ++ m₂ :: post,
        (getObj { queue := (pre ++ m₂ :: post).map Mutation.id,
                  inflightIds := infl, history := hist, stores := σ,
                  objects := (pre ++ m₂ :: post).map fun m => (m.id, m) } ∘
          Mutation.id) m = m := by
      intro m hm
      simp only [Function.comp_apply, getObj, lookup_objectsOf hids hm,
        Option.getD_some]
    rw [List.map_congr_left h₁]
    exact List.map_id' _
  have hfilter : (pre ++ m₂ :: post).filter
      (fun m => (m.id != m₂.id) && (m.status != MutationStatus.failed)) =
      pre ++ post := by
    rw [List.filter_append, List.filter_cons]
    rw [show ((m₂.id != m₂.id) && (m₂.status != MutationStatus.failed)) = false
      by simp]
    simp only [Bool.false_eq_true, if_false]
    rw [List.filter_eq_self.mpr, List.filter_eq_self.mpr]
    · intro m hm
      simp [hneq m (by simp [hm]), hlive m (by simp [hm])]
    · intro m hm
      simp [hneq m (by simp [hm]), hlive m (by simp [hm])]
  have hsorted : sortByTsDesc (pre ++ post) = post.reverse ++ pre.reverse := by
    rw [sortByTsDesc_of_increasing (pairwise_ts_erase_mid hts),
      List.reverse_append]
  obtain ⟨τfun, hτ⟩ :=
    Classical.axiomOfChoice fun s => storeRebase_correct m₂ pre post
      (hwf0 s) hfw hmw hdiv (hchain s)
  have hτ1 : ∀ s, storeRebase m₂ (post.reverse ++ pre.reverse) s (σ s) =
      some (τfun s, []) := fun s => (hτ s).1
  have hτ2 : ∀ s, storeChainApply s (σ0 s) (pre ++ post) = some (τfun s) :=
    fun s => (hτ s).2
  simp only [rollback]
  rw [hmap, hfilter, hsorted]
  have hSnd : ((post.reverse ++ pre.reverse).foldl
      (fun acc m => dedupAdd acc (mutKeys m))
      (dedupAdd [] (mutKeys m₂))).Nodup :=
    foldl_dedupAdd_nodup _ (dedupAdd_nodup List.nodup_nil)
  rw [rebaseFold_ok _ hSnd _ [] τfun (fun s _ => hτ1 s)]
  set S := (post.reverse ++ pre.reverse).foldl
    (fun acc m => dedupAdd acc (mutKeys m)) (dedupAdd [] (mutKeys m₂)) with hS
  set σR : Stores := fun s => if s ∈ S then τfun s else σ s with hσR
  have hτσ : ∀ s, storeChainApply s (σ0 s) (pre ++ post) = some (σR s) := by
    intro s
    rw [hσR]
    by_cases hs : s ∈ S
    · simp only [if_pos hs]
      exact hτ2 s
    · simp only [if_neg hs]
      rw [hS, mem_foldl_dedupAdd, mem_dedupAdd] at hs
      push_neg at hs
      have hnone : ∀ m ∈ pre ++ post, m.storePatches.lookup s = none := by
        intro m hm
        refine lookup_none_of_not_mem_keys fun hk => ?_
        refine hs.2 m ?_ hk
        rcases List.mem_append.mp hm with h₁ | h₁
        · simp [h₁]
        · simp [h₁]
      have hnone₂ : m₂.storePatches.lookup s = none :=
        lookup_none_of_not_mem_keys fun hk => hs.1.2 hk
      have hσs : σ s = σ0 s := by
        refine storeChainInv_of_untouched ?_ (hchain s)
        intro m hm
        rcases List.mem_append.mp hm with h₁ | h₁
        · exact hnone m (by simp [h₁])
        · rcases List.mem_cons.mp h₁ with h₁ | h₁
          · exact h₁ ▸ hnone₂
          · exact hnone m (by simp [h₁])
      have hch : storeChainApply s (σ0 s) (pre ++ post) = some (σ0 s) :=
        storeChainApply_of_untouched (σ0 s) hnone
      have hτs : τfun s = σ0 s := by
        have := hτ2 s
        rw [hch] at this
        injection this with h
        exact h.symm
      rw [hch, hσs]
  refine ⟨σR, ?_, hτσ⟩
  have hgall : ∀ q : List Nat, ∀ m ∈ pre ++ m₂ :: post,
      getObj { queue := q,
               inflightIds := infl, history := hist, stores := σR,
               objects := (pre ++ m₂ :: post).map fun m => (m.id, m) } m.id
        = m := by
    intro q m hm
    simp only [getObj, lookup_objectsOf hids hm, Option.getD_some]
  have hstatf : List.filter (fun m => m.status != MutationStatus.failed)
      (pre ++ m₂ :: post) = pre ++ post := by
    rw [List.filter_append, List.filter_cons]
    rw [show ((m₂.status != MutationStatus.failed) = false) from by
      simp [hstat]]
    simp only [Bool.false_eq_true, if_false]
    have hp : List.filter (fun m => m.status != MutationStatus.failed) pre
        = pre :=
      List.filter_eq_self.mpr fun m hm => by simp [hlive m (by simp [hm])]
    have hq : List.filter (fun m => m.status != MutationStatus.failed) post
        = post :=
      List.filter_eq_self.mpr fun m hm => by simp [hlive m (by simp [hm])]
    rw [hp, hq]
  have hqf : ∀ q : List Nat, List.filter
      (fun i => (getObj { queue := q,
                          inflightIds := infl, history := hist, stores := σR,
                          objects :=
                            (pre ++ m₂ :: post).map fun m => (m.id, m) }
          i).status != MutationStatus.failed)
      ((pre ++ m₂ :: post).map Mutation.id)
      = (pre ++ post).map Mutation.id := by
    intro q
    rw [List.filter_map]
    have hcong : List.filter
        ((fun i => (getObj { queue := q, inflightIds := infl,
                             history := hist, stores := σR,
                             objects :=
                               (pre ++ m₂ :: post).map fun m => (m.id, m) }
            i).status != MutationStatus.failed) ∘ Mutation.id)
        (pre ++ m₂ :: post)
        = List.filter (fun m => m.status != MutationStatus.failed)
            (pre ++ m₂ :: post) := by
      refine List.filter_congr ?_
      intro m hm
      simp only [Function.comp_apply, hgall q m hm]
    rw [hcong, hstatf]
  dsimp only
  rw [hqf]
  rfl

/-- The forward patches of a mutation, across all stores. -/
def fwdPatches (m : Mutation) : List Patch :=
  m.storePatches.bind fun se => se.2.patches

theorem mem_mutAllPatches_of_fwd {m : Mutation} {p : Patch}
    (h : p ∈ fwdPatches m) : p ∈ mutAllPatches m := by
  simp only [fwdPatches, List.mem_bind] at h
  obtain ⟨se, hse, hp⟩ := h
  simp only [mutAllPatches, List.mem_bind]
  exact ⟨se, hse, by simp [hp]⟩

/-- Non-conflicting affected paths of the forward patches force pairwise
divergence of all patch paths, provided each inverse patch path mirrors
some forward patch path (the immer patch shape) and no patch addresses
the store root. -/
theorem divergeM_of_conflict_free {a b : Mutation}
    (hpa : ∀ p ∈ mutAllPatches a, p.path ≠ [])
    (hpb : ∀ p ∈ mutAllPatches b, p.path ≠ [])
    (hma : ∀ q ∈ mutAllPatches a, ∃ p ∈ fwdPatches a, q.path = p.path)
    (hmb : ∀ q ∈ mutAllPatches b, ∃ p ∈ fwdPatches b, q.path = p.path)
    (hconf : hasPathConflict (extractAffectedPaths (fwdPatches a))
      (extractAffectedPaths (fwdPatches b)) = false) :
    ∀ p ∈ mutAllPatches a, ∀ q ∈ mutAllPatches b, Diverge p.path q.path := by
  intro p hp q hq
  obtain ⟨p₁, hp₁, hpe⟩ := hma p hp
  obtain ⟨q₁, hq₁, hqe⟩ := hmb q hq
  rw [hpe, hqe]
  exact diverge_of_hasPathConflict_false hconf
    (fun r hr => hpa r (mem_mutAllPatches_of_fwd hr))
    (fun r hr => hpb r (mem_mutAllPatches_of_fwd hr)) p₁ hp₁ q₁ hq₁

theorem storeChainInv_replace {s : Nat} {a b : Mutation}
    (hab : a.storePatches = b.storePatches) (pre : List Mutation) :
    ∀ (v w : JVal) (post : List Mutation),
      StoreChainInv s v (pre ++ a :: post) w →
      StoreChainInv s v (pre ++ b :: post) w := by
  induction pre with
  | nil =>
    intro v w post h
    simp only [List.nil_append, StoreChainInv] at h ⊢
    rw [← hab]
    exact h
  | cons m t ih =>
    intro v w post h
    simp only [List.cons_append, StoreChainInv] at h ⊢
    cases hm : m.storePatches.lookup s with
    | none =>
      rw [hm] at h
      exact ih v w post h
    | some e =>
      rw [hm] at h
      obtain ⟨u, h₁, h₂, h₃⟩ := h
      exact ⟨u, h₁, h₂, ih u w post h₃⟩

theorem pairwise_ts_replace {pre post : List Mutation} {a b : Mutation}
    (hab : a.timestamp = b.timestamp)
    (h : List.Pairwise (fun x y => x.timestamp < y.timestamp)
      (pre ++ a :: post)) :
    List.Pairwise (fun x y => x.timestamp < y.timestamp)
      (pre ++ b :: post) := by
  rw [List.pairwise_append] at h ⊢
  obtain ⟨h₁, h₂, h₃⟩ := h
  rw [List.pairwise_cons] at h₂ ⊢
  refine ⟨h₁, ⟨fun y hy => ?_, h₂.2⟩, fun x hx y hy => ?_⟩
  · rw [← hab]
    exact h₂.1 y hy
  · rcases List.mem_cons.mp hy with rfl | hy₁
    · rw [← hab]
      exact h₃ x hx a (by simp)
    · exact h₃ x hx y (by simp [hy₁])

theorem objects_update {pre post : List Mutation} {f m₂ : Mutation}
    (hm₂ : m₂.id = f.id)
    (hneq : ∀ m ∈ pre ++ post, m.id ≠ f.id) :
    ((pre ++ f :: post).map fun m => (m.id, m)).map
        (fun im => if im.1 = m₂.id then (im.1, m₂) else im)
      = (pre ++ m₂ :: post).map fun m => (m.id, m) := by
  rw [List.map_map]
  simp only [List.map_append, List.map_cons]
  have hpre : pre.map ((fun im => if im.1 = m₂.id then (im.1, m₂) else im) ∘
      fun m => (m.id, m)) = pre.map fun m => (m.id, m) := by
    refine List.map_congr_left fun m hm => ?_
    simp only [Function.comp_apply]
    rw [hm₂, if_neg (hneq m (by simp [hm]))]
  have hpost : post.map ((fun im => if im.1 = m₂.id then (im.1, m₂) else im) ∘
      fun m => (m.id, m)) = post.map fun m => (m.id, m) := by
    refine List.map_congr_left fun m hm => ?_
    simp only [Function.comp_apply]
    rw [hm₂, if_neg (hneq m (by simp [hm]))]
  have hmid : ((fun im => if im.1 = m₂.id then (im.1, m₂) else im) ∘
      fun m => (m.id, m)) f = (m₂.id, m₂) := by
    simp only [Function.comp_apply]
    rw [if_pos hm₂.symm, hm₂]
  rw [hpre, hpost, hmid]

theorem resolveFailure_scenario (pre post : List Mutation) (f : Mutation)
    (σ0 σ : Stores) (hist : List MutationSnapshot) (infl : List Nat)
    (hwf0 : ∀ s, JVal.wfB (σ0 s) = true)
    (hids : ((pre ++ f :: post).map Mutation.id).Nodup)
    (hts : List.Pairwise (fun a b => a.timestamp < b.timestamp)
      (pre ++ f :: post))
    (hlive : ∀ m ∈ pre ++ post, m.status ≠ MutationStatus.failed)
    (hretry : f.maxRetries ≤ f.retryCount)
    (hfw : MutWF f)
    (hmw : ∀ m ∈ pre ++ post, MutWF m)
    (hpne : ∀ m ∈ f :: (pre ++ post), ∀ p ∈ mutAllPatches m, p.path ≠ [])
    (hmirror : ∀ m ∈ f :: (pre ++ post), ∀ q ∈ mutAllPatches m,
      ∃ p ∈ fwdPatches m, q.path = p.path)
    (hconf : ∀ m ∈ pre ++ post,
      hasPathConflict (extractAffectedPaths (fwdPatches f))
        (extractAffectedPaths (fwdPatches m)) = false)
    (hchain : ∀ s, StoreChainInv s (σ0 s) (pre ++ f :: post) (σ s)) :
    ∃ st₁ evs,
      resolveFailure
        { queue := (pre ++ f :: post).map Mutation.id, inflightIds := infl,
          history := hist, stores := σ,
          objects := (pre ++ f :: post).map fun m => (m.id, m) } f.id
        = some (st₁, evs) ∧
      (∀ s, storeChainApply s (σ0 s) (pre ++ post) = some (st₁.stores s)) ∧
      st₁.queue = (pre ++ post).map Mutation.id := by
  have hneqf : ∀ m ∈ pre ++ post, m.id ≠ f.id := nodup_mid_ne hids
  have hgf : getObj
      { queue := (pre ++ f :: post).map Mutation.id, inflightIds := infl,
        history := hist, stores := σ,
        objects := (pre ++ f :: post).map fun m => (m.id, m) } f.id = f := by
    simp only [getObj,
      lookup_objectsOf hids (by simp : f ∈ pre ++ f :: post), Option.getD_some]
  have hcond : (getObj
      { queue := (pre ++ f :: post).map Mutation.id, inflightIds := infl,
        history := hist, stores := σ,
        objects := (pre ++ f :: post).map fun m => (m.id, m) } f.id).maxRetries
      < (getObj
      { queue := (pre ++ f :: post).map Mutation.id, inflightIds := infl,
        history := hist, stores := σ,
        objects := (pre ++ f :: post).map fun m => (m.id, m) }
        f.id).retryCount + 1 := by
    rw [hgf]
    omega
  rw [resolveFailure_eq_terminal _ f.id hcond]
  simp only [hgf]
  generalize hm₂ : ({ f with retryCount := f.retryCount + 1, status := MutationStatus.failed } : Mutation) = m₂
  have hid : m₂.id = f.id := by rw [← hm₂]
  have hsp : m₂.storePatches = f.storePatches := by rw [← hm₂]
  have hts₂ : f.timestamp = m₂.timestamp := by rw [← hm₂]
  have hst₂ : m₂.status = MutationStatus.failed := by rw [← hm₂]
  have hmall : mutAllPatches m₂ = mutAllPatches f := by
    simp only [mutAllPatches, hsp]
  have hqeq : (pre ++ f :: post).map Mutation.id =
      (pre ++ m₂ :: post).map Mutation.id := by
    simp [hid]
  have hso : setObj { queue := (pre ++ f :: post).map Mutation.id,
                      inflightIds := infl, history := hist, stores := σ,
                      objects := (pre ++ f :: post).map fun m => (m.id, m) } m₂
      = { queue := (pre ++ m₂ :: post).map Mutation.id,
          inflightIds := infl, history := hist, stores := σ,
          objects := (pre ++ m₂ :: post).map fun m => (m.id, m) } := by
    simp only [setObj]
    rw [@objects_update pre post f m₂ hid hneqf, hqeq]
  rw [hso]
  dsimp only
  obtain ⟨σR, hroll, hchR⟩ := rollback_scenario pre post m₂ σ0 σ hist
    (infl.erase f.id) hwf0 (by rw [← hqeq]; exact hids)
    (pairwise_ts_replace hts₂ hts) hlive hst₂
    (by rw [MutWF, hmall]; exact hfw) hmw
    (by intro m hm
        rw [hmall]
        exact divergeM_of_conflict_free (hpne f (by simp))
          (hpne m (by simp [hm])) (hmirror f (by simp))
          (hmirror m (by simp [hm])) (hconf m hm))
    (fun s => storeChainInv_replace hsp.symm pre (σ0 s) (σ s) post (hchain s))
  rw [hroll]
  dsimp only
  refine ⟨_, _, rfl, fun s => hchR s, ?_⟩
  refine List.filter_eq_self.mpr fun i hi => ?_
  obtain ⟨m, hm, hmi⟩ := List.mem_map.mp hi
  rw [← hmi]
  simp [hneqf m hm]

theorem redoRemaining_fails_sub (s : Nat) : ∀ (v : JVal) (ms : List Mutation),
    ∀ m ∈ (redoRemaining s v ms).2, m ∈ ms := by
  intro v ms
  induction ms generalizing v with
  | nil =>
    intro m hm
    simp [redoRemaining] at hm
  | cons m₁ t ih =>
    intro m hm
    rcases hl : m₁.storePatches.lookup s with _ | e
    · simp only [redoRemaining, hl] at hm
      exact List.mem_cons_of_mem _ (ih v m hm)
    · rcases ha : applyPatches v e.patches with _ | v₁
      · simp only [redoRemaining, hl, ha] at hm
        rcases List.mem_cons.mp hm with rfl | hm₃
        · exact List.mem_cons_self _ _
        · exact List.mem_cons_of_mem _ (ih v m hm₃)
      · simp only [redoRemaining, hl, ha] at hm
        exact List.mem_cons_of_mem _ (ih v₁ m hm)

theorem redoRemaining_append (s : Nat) (A : List Mutation) :
    ∀ (v : JVal) (B : List Mutation),
    redoRemaining s v (A ++ B) =
      ((redoRemaining s (redoRemaining s v A).1 B).1,
       (redoRemaining s v A).2 ++ (redoRemaining s (redoRemaining s v A).1 B).2) := by
  induction A with
  | nil =>
    intro v B
    simp [redoRemaining]
  | cons m t ih =>
    intro v B
    rcases hl : m.storePatches.lookup s with _ | e
    · simp only [List.cons_append, redoRemaining, hl]
      exact ih v B
    · rcases ha : applyPatches v e.patches with _ | v₁
      · simp only [List.cons_append, redoRemaining, hl, ha]
        show ((redoRemaining s v (t ++ B)).1,
          m :: (redoRemaining s v (t ++ B)).2) = _
        rw [ih v B]
      · simp only [List.cons_append, redoRemaining, hl, ha]
        exact ih v₁ B

theorem redoRemaining_cons_mem_iff {s : Nat} {v : JVal} {m : Mutation}
    {t : List Mutation} (hmt : m ∉ t) :
    m ∈ (redoRemaining s v (m :: t)).2 ↔
      ∃ e, m.storePatches.lookup s = some e ∧
        applyPatches v e.patches = none := by
  rcases hl : m.storePatches.lookup s with _ | e
  · simp only [redoRemaining, hl]
    constructor
    · intro h
      exact absurd (redoRemaining_fails_sub s v t m h) hmt
    · rintro ⟨e, he, _⟩
      exact absurd he (by simp)
  · rcases ha : applyPatches v e.patches with _ | v₁
    · simp only [redoRemaining, hl, ha]
      constructor
      · intro _
        exact ⟨e, rfl, ha⟩
      · intro _
        exact List.mem_cons_self _ _
    · simp only [redoRemaining, hl, ha]
      constructor
      · intro h
        exact absurd (redoRemaining_fails_sub s v₁ t m h) hmt
      · rintro ⟨e₁, he₁, ha₁⟩
        injection he₁ with h₂
        rw [← h₂, ha] at ha₁
        exact absurd ha₁ (by simp)

theorem redo_mem_fails_iff (s : Nat) (v : JVal) (A B : List Mutation)
    (m : Mutation) (hA : m ∉ A) (hB : m ∉ B) :
    m ∈ (redoRemaining s v (A ++ m :: B)).2 ↔
      ∃ e, m.storePatches.lookup s = some e ∧
        applyPatches ((redoRemaining s v A).1) e.patches = none := by
  rw [redoRemaining_append s A v (m :: B)]
  constructor
  · intro h
    rcases List.mem_append.mp h with h₁ | h₁
    · exact absurd (redoRemaining_fails_sub s v A m h₁) hA
    · exact (redoRemaining_cons_mem_iff hB).mp h₁
  · intro h
    exact List.mem_append.mpr (Or.inr ((redoRemaining_cons_mem_iff hB).mpr h))

-- ============================================================
-- Run invariants: heap coherence and the retry bound
-- ============================================================

theorem lookup_append {β : Type} (A B : List (Nat × β)) (j : Nat) :
    (A ++ B).lookup j =
      match A.lookup j with
      | some v => some v
      | none => B.lookup j := by
  induction A with
  | nil => simp [List.lookup]
  | cons kv t ih =>
    obtain ⟨k, v⟩ := kv
    by_cases hk : j = k
    · subst hk
      simp [List.lookup]
    · rw [List.cons_append, lookup_cons_ne hk, lookup_cons_ne hk, ih]

theorem lookup_map_setObj (m : Mutation) (j : Nat) :
    ∀ (objs : List (Nat × Mutation)),
    (objs.map fun im => if im.1 = m.id then (im.1, m) else im).lookup j
      = (objs.lookup j).map fun v => if j = m.id then m else v := by
  intro objs
  induction objs with
  | nil => rfl
  | cons kv t ih =>
    obtain ⟨k, v⟩ := kv
    simp only [List.map_cons]
    by_cases hk : k = m.id
    · rw [if_pos hk]
      by_cases hj : j = k
      · subst hj
        rw [lookup_cons_self, lookup_cons_self]
        simp [hk]
      · rw [lookup_cons_ne hj, lookup_cons_ne hj, ih]
    · rw [if_neg hk]
      by_cases hj : j = k
      · subst hj
        rw [lookup_cons_self, lookup_cons_self]
        simp [hk]
      · rw [lookup_cons_ne hj, lookup_cons_ne hj, ih]

theorem getObj_setObj_ne (st : EngState) (m : Mutation) {j : Nat}
    (hj : j ≠ m.id) : getObj (setObj st m) j = getObj st j := by
  simp only [getObj, setObj, lookup_map_setObj]
  cases st.objects.lookup j with
  | none => rfl
  | some v => simp [hj]

theorem getObj_setObj_cases (st : EngState) (m : Mutation) (j : Nat) :
    getObj (setObj st m) j = getObj st j ∨ getObj (setObj st m) j = m := by
  by_cases hj : j = m.id
  · subst hj
    simp only [getObj, setObj, lookup_map_setObj]
    cases st.objects.lookup m.id with
    | none => exact Or.inl rfl
    | some v => exact Or.inr (by simp)
  · exact Or.inl (getObj_setObj_ne st m hj)

theorem keys_setObj (st : EngState) (m : Mutation) :
    (setObj st m).objects.map Prod.fst = st.objects.map Prod.fst := by
  simp only [setObj, List.map_map]
  refine List.map_congr_left fun im _ => ?_
  by_cases h : im.1 = m.id
  · simp [h]
  · simp [h]

/-- Every heap cell's key is the id of the mutation object it holds. -/
def HeapCoh (st : EngState) : Prop :=
  ∀ kv ∈ st.objects, (kv.2).id = kv.1

theorem heapCoh_setObj {st : EngState} (m : Mutation) (h : HeapCoh st) :
    HeapCoh (setObj st m) := by
  intro kv hkv
  simp only [setObj, List.mem_map] at hkv
  obtain ⟨im, him, hkv₁⟩ := hkv
  by_cases hc : im.1 = m.id
  · rw [if_pos hc] at hkv₁
    rw [← hkv₁]
    exact hc.symm
  · rw [if_neg hc] at hkv₁
    rw [← hkv₁]
    exact h im him

theorem mem_of_lookup_eq_some {β : Type} {j : Nat} {v : β} :
    ∀ {l : List (Nat × β)}, l.lookup j = some v → (j, v) ∈ l := by
  intro l
  induction l with
  | nil => intro h; simp [List.lookup] at h
  | cons kv t ih =>
    intro h
    obtain ⟨k, w⟩ := kv
    by_cases hk : j = k
    · subst hk
      rw [lookup_cons_self] at h
      injection h with h₁
      rw [h₁]
      exact List.mem_cons_self _ _
    · rw [lookup_cons_ne hk] at h
      exact List.mem_cons_of_mem _ (ih h)

theorem getObj_id_of_coh {st : EngState} (hcoh : HeapCoh st) {i : Nat}
    (hs : (st.objects.lookup i).isSome) : (getObj st i).id = i := by
  obtain ⟨v, hv⟩ := Option.isSome_iff_exists.mp hs
  rw [getObj, hv, Option.getD_some]
  exact hcoh (i, v) (mem_of_lookup_eq_some hv)

/-- The queue-level retry/status invariant: every live mutation is
un-failed and within its retry budget. -/
def QInv (st : EngState) : Prop :=
  ∀ i ∈ st.queue,
    (getObj st i).status ≠ MutationStatus.failed ∧
    (getObj st i).retryCount ≤ (getObj st i).maxRetries

/-- The weak (mid-rollback) form: a live mutation is either failed
(awaiting retirement by the queue filter) or within budget. -/
def WQInv (st : EngState) : Prop :=
  ∀ i ∈ st.queue,
    (getObj st i).status = MutationStatus.failed ∨
    ((getObj st i).status ≠ MutationStatus.failed ∧
     (getObj st i).retryCount ≤ (getObj st i).maxRetries)

/-- Full state invariant relative to the list `ks` of committed ids. -/
def EngInv (st : EngState) (ks : List Nat) : Prop :=
  st.objects.map Prod.fst = ks ∧ HeapCoh st ∧ List.Sublist st.queue ks ∧ QInv st

/-- Weak state invariant (inside a rollback, before the queue filter). -/
def WEngInv (st : EngState) (ks : List Nat) : Prop :=
  st.objects.map Prod.fst = ks ∧ HeapCoh st ∧ List.Sublist st.queue ks ∧ WQInv st

theorem engInv_weaken {st : EngState} {ks : List Nat} (h : EngInv st ks) :
    WEngInv st ks :=
  ⟨h.1, h.2.1, h.2.2.1, fun i hi => Or.inr (h.2.2.2 i hi)⟩

/-- Event goodness: a notification's live part is within retry budget
(unless failed) and lists ids committed so far, in order. -/
def evGood (ks : List Nat) : Ev → Prop
  | .notify live _ =>
    (∀ m ∈ live, m.status ≠ MutationStatus.failed →
      m.retryCount ≤ m.maxRetries) ∧ List.Sublist (live.map Mutation.id) ks
  | _ => True

theorem evGood_mono {ks ks' : List Nat} {ev : Ev} (h : evGood ks ev)
    (hk : List.Sublist ks ks') : evGood ks' ev := by
  cases ev with
  | notify live hist => exact ⟨h.1, h.2.trans hk⟩
  | success s => trivial
  | error s => trivial

theorem liveIds_eq {st : EngState} {ks : List Nat}
    (hkeys : st.objects.map Prod.fst = ks) (hcoh : HeapCoh st)
    (hq : List.Sublist st.queue ks) : (liveMuts st).map Mutation.id = st.queue := by
  rw [liveMuts, List.map_map]
  have h₁ : ∀ i ∈ st.queue, (Mutation.id ∘ getObj st) i = i := by
    intro i hi
    have hik : i ∈ st.objects.map Prod.fst := by
      rw [hkeys]
      exact hq.mem hi
    obtain ⟨e, he⟩ := lookup_isSome_of_mem_fst hik
    exact getObj_id_of_coh hcoh (by rw [he]; rfl)
  rw [List.map_congr_left h₁]
  exact List.map_id' _

theorem notify_good {st : EngState} {ks : List Nat} (hinv : EngInv st ks) :
    evGood ks (notifyEv st) := by
  obtain ⟨hkeys, hcoh, hq, hQ⟩ := hinv
  refine ⟨?_, ?_⟩
  · intro m hm _
    obtain ⟨i, hi, hmi⟩ := List.mem_map.mp hm
    rw [← hmi]
    exact (hQ i hi).2
  · rw [liveIds_eq hkeys hcoh hq]
    exact hq

theorem notify_good_weak {st : EngState} {ks : List Nat}
    (hinv : WEngInv st ks) : evGood ks (notifyEv st) := by
  obtain ⟨hkeys, hcoh, hq, hQ⟩ := hinv
  refine ⟨?_, ?_⟩
  · intro m hm hms
    obtain ⟨i, hi, hmi⟩ := List.mem_map.mp hm
    rcases hQ i hi with h₁ | h₁
    · rw [← hmi] at hms
      exact absurd h₁ hms
    · rw [← hmi]
      exact h₁.2
  · rw [liveIds_eq hkeys hcoh hq]
    exact hq

theorem getObj_congr_objects {st st' : EngState} (h : st'.objects = st.objects)
    (i : Nat) : getObj st' i = getObj st i := by
  rw [getObj, getObj, h]

theorem engInv_sub {st st' : EngState} {ks : List Nat} (hinv : EngInv st ks)
    (hobj : st'.objects = st.objects)
    (hq : List.Sublist st'.queue st.queue) : EngInv st' ks := by
  obtain ⟨hkeys, hcoh, hqs, hQ⟩ := hinv
  refine ⟨by rw [hobj]; exact hkeys, ?_, hq.trans hqs, ?_⟩
  · intro kv hkv
    rw [hobj] at hkv
    exact hcoh kv hkv
  · intro i hi
    rw [getObj_congr_objects hobj]
    exact hQ i (hq.mem hi)

theorem wEngInv_sub {st st' : EngState} {ks : List Nat} (hinv : WEngInv st ks)
    (hobj : st'.objects = st.objects)
    (hq : List.Sublist st'.queue st.queue) : WEngInv st' ks := by
  obtain ⟨hkeys, hcoh, hqs, hQ⟩ := hinv
  refine ⟨by rw [hobj]; exact hkeys, ?_, hq.trans hqs, ?_⟩
  · intro kv hkv
    rw [hobj] at hkv
    exact hcoh kv hkv
  · intro i hi
    rw [getObj_congr_objects hobj]
    exact hQ i (hq.mem hi)

theorem engInv_setObj {st : EngState} {ks : List Nat} {m : Mutation}
    (hinv : EngInv st ks) (hs : m.status ≠ MutationStatus.failed)
    (hb : m.retryCount ≤ m.maxRetries) : EngInv (setObj st m) ks := by
  obtain ⟨hkeys, hcoh, hq, hQ⟩ := hinv
  refine ⟨by rw [keys_setObj]; exact hkeys, heapCoh_setObj m hcoh, hq, ?_⟩
  intro i hi
  rcases getObj_setObj_cases st m i with h | h
  · rw [h]
    exact hQ i hi
  · rw [h]
    exact ⟨hs, hb⟩

theorem wEngInv_setObj {st : EngState} {ks : List Nat} {m : Mutation}
    (hinv : WEngInv st ks)
    (hm : m.status = MutationStatus.failed ∨
      (m.status ≠ MutationStatus.failed ∧ m.retryCount ≤ m.maxRetries)) :
    WEngInv (setObj st m) ks := by
  obtain ⟨hkeys, hcoh, hq, hQ⟩ := hinv
  refine ⟨by rw [keys_setObj]; exact hkeys, heapCoh_setObj m hcoh, hq, ?_⟩
  intro i hi
  rcases getObj_setObj_cases st m i with h | h
  · rw [h]
    exact hQ i hi
  · rw [h]
    exact hm

theorem engInv_clear {st : EngState} {ks : List Nat} (hinv : EngInv st ks) :
    EngInv (clear st).1 ks ∧ ∀ ev ∈ (clear st).2, evGood ks ev := by
  have h₁ : EngInv (clear st).1 ks :=
    engInv_sub hinv rfl (List.nil_sublist _)
  refine ⟨h₁, ?_⟩
  intro ev hev
  rcases List.mem_cons.mp hev with rfl | hev₁
  · exact notify_good h₁
  · simp at hev₁

theorem engInv_dispatchStart {st : EngState} {ks : List Nat} {i : Nat}
    (hinv : EngInv st ks) (hi : i ∈ st.queue) :
    EngInv (dispatchStart st i) ks ∧ (dispatchStart st i).queue = st.queue := by
  have hgood := hinv.2.2.2 i hi
  have h₁ : EngInv (setObj st { getObj st i with status := .inflight }) ks :=
    engInv_setObj hinv (by simp) hgood.2
  exact ⟨engInv_sub h₁ rfl (by rw [dispatchStart]), rfl⟩

theorem engInv_processNext_fold {st : EngState} {ks : List Nat} :
    ∀ (ids : List Nat) (acc : EngState × List Ev),
      (∀ i ∈ ids, i ∈ st.queue) →
      EngInv acc.1 ks → acc.1.queue = st.queue →
      (∀ ev ∈ acc.2, evGood ks ev) →
      EngInv (ids.foldl
        (fun acc i =>
          let st₁ := dispatchStart acc.1 i
          (st₁, acc.2 ++ [notifyEv st₁])) acc).1 ks ∧
      (ids.foldl
        (fun acc i =>
          let st₁ := dispatchStart acc.1 i
          (st₁, acc.2 ++ [notifyEv st₁])) acc).1.queue = st.queue ∧
      ∀ ev ∈ (ids.foldl
        (fun acc i =>
          let st₁ := dispatchStart acc.1 i
          (st₁, acc.2 ++ [notifyEv st₁])) acc).2, evGood ks ev := by
  intro ids
  induction ids with
  | nil =>
    intro acc _ h₁ h₂ h₃
    exact ⟨h₁, h₂, h₃⟩
  | cons i t ih =>
    intro acc hids h₁ h₂ h₃
    rw [List.foldl_cons]
    have hiq : i ∈ acc.1.queue := by
      rw [h₂]
      exact hids i (by simp)
    obtain ⟨hd₁, hd₂⟩ := engInv_dispatchStart h₁ hiq
    refine ih _ (fun j hj => hids j (by simp [hj])) hd₁ (by rw [hd₂, h₂]) ?_
    intro ev hev
    rcases List.mem_append.mp hev with hev₁ | hev₁
    · exact h₃ ev hev₁
    · rcases List.mem_singleton.mp hev₁ with rfl
      exact notify_good hd₁

theorem engInv_processNext {st : EngState} {ks : List Nat}
    (hinv : EngInv st ks) :
    EngInv (processNext st).1 ks ∧ (processNext st).1.queue = st.queue ∧
    ∀ ev ∈ (processNext st).2, evGood ks ev := by
  refine engInv_processNext_fold _ _ ?_ hinv rfl (by simp)
  intro i hi
  exact List.mem_of_mem_filter hi

theorem lookup_none_of_not_mem_fst {β : Type} {j : Nat} :
    ∀ {l : List (Nat × β)}, j ∉ l.map Prod.fst → l.lookup j = none := by
  intro l
  induction l with
  | nil => intro _; rfl
  | cons kv t ih =>
    intro h
    obtain ⟨k, v⟩ := kv
    simp only [List.map_cons, List.mem_cons] at h
    push_neg at h
    rw [lookup_cons_ne h.1]
    exact ih h.2

theorem engInv_enqueue {st : EngState} {ks : List Nat} {m : Mutation}
    (hinv : EngInv st ks) (hfresh : m.id ∉ ks)
    (hms : m.status ≠ MutationStatus.failed)
    (hmb : m.retryCount ≤ m.maxRetries) :
    EngInv (enqueue st m).1 (ks ++ [m.id]) ∧
    ∀ ev ∈ (enqueue st m).2, evGood (ks ++ [m.id]) ev := by
  obtain ⟨hkeys, hcoh, hq, hQ⟩ := hinv
  have h₁ : EngInv
      { st with objects := st.objects ++ [(m.id, m)],
                queue := st.queue ++ [m.id] } (ks ++ [m.id]) := by
    refine ⟨?_, ?_, ?_, ?_⟩
    · rw [List.map_append, hkeys]
      rfl
    · intro kv hkv
      rcases List.mem_append.mp hkv with h₂ | h₂
      · exact hcoh kv h₂
      · rcases List.mem_singleton.mp h₂ with rfl
        rfl
    · exact hq.append (List.Sublist.refl _)
    · intro j hj
      have hget : getObj
          { st with objects := st.objects ++ [(m.id, m)],
                    queue := st.queue ++ [m.id] } j
          = getObj st j ∨ getObj
          { st with objects := st.objects ++ [(m.id, m)],
                    queue := st.queue ++ [m.id] } j = m := by
        simp only [getObj, lookup_append]
        cases hl : st.objects.lookup j with
        | some v => exact Or.inl rfl
        | none =>
          by_cases hjm : j = m.id
          · subst hjm
            rw [lookup_cons_self]
            exact Or.inr rfl
          · rw [lookup_cons_ne hjm]
            exact Or.inl rfl
      rcases List.mem_append.mp hj with h₂ | h₂
      · rcases hget with h₃ | h₃
        · rw [h₃]
          exact hQ j h₂
        · rw [h₃]
          exact ⟨hms, hmb⟩
      · rcases List.mem_singleton.mp h₂ with rfl
        have hl : st.objects.lookup m.id = none := by
          refine lookup_none_of_not_mem_fst ?_
          rw [hkeys]
          exact hfresh
        simp only [getObj, lookup_append, hl, lookup_cons_self]
        exact ⟨hms, hmb⟩
  obtain ⟨hp₁, hp₂, hp₃⟩ := engInv_processNext h₁
  refine ⟨hp₁, ?_⟩
  intro ev hev
  rcases List.mem_cons.mp hev with rfl | hev₁
  · exact notify_good h₁
  · exact hp₃ ev hev₁

theorem engInv_resolveSuccess {st : EngState} {ks : List Nat} (i : Nat)
    (hinv : EngInv st ks) :
    EngInv (resolveSuccess st i).1 ks ∧
    ∀ ev ∈ (resolveSuccess st i).2, evGood ks ev := by
  obtain ⟨hkeys, hcoh, hq, hQ⟩ := hinv
  have h₁ : EngInv (setObj st { getObj st i with status := .success }) ks := by
    refine ⟨by rw [keys_setObj]; exact hkeys, heapCoh_setObj _ hcoh, hq, ?_⟩
    intro j hj
    by_cases hsome : (st.objects.lookup i).isSome
    · have hii : ({ getObj st i with
          status := MutationStatus.success } : Mutation).id = i :=
        getObj_id_of_coh hcoh hsome
      by_cases hji : j = i
      · subst hji
        rcases getObj_setObj_cases st
          { getObj st j with status := .success } j with h | h
        · rw [h]
          exact hQ j hj
        · rw [h]
          exact ⟨by simp, (hQ j hj).2⟩
      · rw [getObj_setObj_ne st _ (by rw [hii]; exact hji)]
        exact hQ j hj
    · have hd : getObj st i = default := by
        rw [getObj, Option.not_isSome_iff_eq_none.mp hsome]
        rfl
      rcases getObj_setObj_cases st
        { getObj st i with status := .success } j with h | h
      · rw [h]
        exact hQ j hj
      · rw [h, hd]
        exact ⟨by decide, by decide⟩
  have h₃ : EngInv (resolveSuccess st i).1 ks := by
    refine engInv_sub h₁ rfl ?_
    exact List.filter_sublist _
  refine ⟨h₃, ?_⟩
  intro ev hev
  rcases List.mem_cons.mp hev with rfl | hev₁
  · exact notify_good h₃
  · rcases List.mem_cons.mp hev₁ with rfl | h₂
    · trivial
    · simp at h₂

theorem wEngInv_markFailed {st : EngState} {ks : List Nat} (m : Mutation)
    (hinv : WEngInv st ks) :
    WEngInv (markFailed st m) ks ∧ (markFailed st m).queue = st.queue := by
  have h₁ : WEngInv (setObj st { m with status := .failed }) ks :=
    wEngInv_setObj hinv (Or.inl rfl)
  exact ⟨wEngInv_sub h₁ rfl (List.Sublist.refl _), rfl⟩

theorem wEngInv_foldl_markFailed {ks : List Nat} :
    ∀ (fails : List Mutation) (st : EngState), WEngInv st ks →
    WEngInv (fails.foldl markFailed st) ks ∧
    (fails.foldl markFailed st).queue = st.queue := by
  intro fails
  induction fails with
  | nil =>
    intro st h
    exact ⟨h, rfl⟩
  | cons m t ih =>
    intro st h
    rw [List.foldl_cons]
    obtain ⟨h₁, h₂⟩ := wEngInv_markFailed m h
    obtain ⟨h₃, h₄⟩ := ih (markFailed st m) h₁
    exact ⟨h₃, by rw [h₄, h₂]⟩

theorem rollbackStoreStep_inv {ks q0 : List Nat} (fm : Mutation)
    (remaining : List Mutation) :
    ∀ (S : List Nat) (acc : Option (EngState × List Ev)),
    (∀ stA evsA, acc = some (stA, evsA) →
      WEngInv stA ks ∧ stA.queue = q0 ∧ ∀ ev ∈ evsA, evGood ks ev) →
    ∀ stA evsA,
      S.foldl (rollbackStoreStep fm remaining) acc = some (stA, evsA) →
      WEngInv stA ks ∧ stA.queue = q0 ∧ ∀ ev ∈ evsA, evGood ks ev := by
  intro S
  induction S with
  | nil =>
    intro acc hacc stA evsA h
    exact hacc _ _ h
  | cons s t ih =>
    intro acc hacc stA evsA h
    rw [List.foldl_cons] at h
    refine ih _ ?_ stA evsA h
    intro stB evsB hB
    cases acc with
    | none => simp [rollbackStoreStep] at hB
    | some p =>
      obtain ⟨stC, evsC⟩ := p
      obtain ⟨hC₁, hC₂, hC₃⟩ := hacc stC evsC rfl
      simp only [rollbackStoreStep] at hB
      cases hsr : storeRebase fm remaining s (stC.stores s) with
      | none =>
        rw [hsr] at hB
        exact absurd hB (by simp)
      | some pr =>
        rw [hsr] at hB
        obtain ⟨v₃, fails⟩ := pr
        rw [Option.some.injEq, Prod.mk.injEq] at hB
        obtain ⟨hBs, hBe⟩ := hB
        obtain ⟨hZ₁, hZ₂⟩ := wEngInv_foldl_markFailed fails stC hC₁
        refine ⟨?_, ?_, ?_⟩
        · rw [← hBs]
          exact wEngInv_sub hZ₁ rfl (List.Sublist.refl _)
        · rw [← hBs]
          show (fails.foldl markFailed stC).queue = q0
          rw [hZ₂, hC₂]
        · intro ev hev
          rw [← hBe] at hev
          rcases List.mem_append.mp hev with h₁ | h₁
          · exact hC₃ ev h₁
          · obtain ⟨m, _, hm⟩ := List.mem_map.mp h₁
            rw [← hm]
            trivial

theorem engInv_rollback {st : EngState} {ks : List Nat} {fm : Mutation}
    {st₁ : EngState} {evs : List Ev}
    (hinv : WEngInv st ks) (hrb : rollback st fm = some (st₁, evs)) :
    EngInv st₁ ks ∧ ∀ ev ∈ evs, evGood ks ev := by
  simp only [rollback] at hrb
  cases hAf : ((sortByTsDesc ((st.queue.map (getObj st)).filter
        fun m => (m.id != fm.id) &&
          (m.status != MutationStatus.failed))).foldl
      (fun acc m => dedupAdd acc (mutKeys m))
      (dedupAdd [] (mutKeys fm))).foldl
      (rollbackStoreStep fm (sortByTsDesc ((st.queue.map (getObj st)).filter
        fun m => (m.id != fm.id) && (m.status != MutationStatus.failed))))
      (some (st, [])) with
  | none =>
    rw [hAf] at hrb
    exact absurd hrb (by simp)
  | some p =>
    rw [hAf] at hrb
    obtain ⟨stA, evsA⟩ := p
    obtain ⟨hA₁, hA₂, hA₃⟩ := rollbackStoreStep_inv fm _ _ _
      (by intro stB evsB hB
          rw [Option.some.injEq, Prod.mk.injEq] at hB
          obtain ⟨h₁, h₂⟩ := hB
          rw [← h₁, ← h₂]
          exact ⟨hinv, rfl, by simp⟩) stA evsA hAf
    rw [Option.some.injEq, Prod.mk.injEq] at hrb
    obtain ⟨hrb₁, hrb₂⟩ := hrb
    have hE : EngInv { stA with
        queue := stA.queue.filter
                   fun i => (getObj stA i).status != MutationStatus.failed }
        ks := by
      obtain ⟨hk, hc, hs, hW⟩ := hA₁
      refine ⟨hk, hc, (List.filter_sublist _).trans hs, ?_⟩
      intro j hj
      have hj' : j ∈ List.filter
          (fun i => (getObj stA i).status != MutationStatus.failed)
          stA.queue := hj
      obtain ⟨hj₁, hj₂⟩ := List.mem_filter.mp hj'
      rw [bne_iff_ne] at hj₂
      rcases hW j hj₁ with h₁ | h₁
      · exact absurd h₁ hj₂
      · exact h₁
    refine ⟨by rw [← hrb₁]; exact hE, ?_⟩
    intro ev hev
    rw [← hrb₂] at hev
    rcases List.mem_append.mp hev with h₁ | h₁
    · exact hA₃ ev h₁
    · rcases List.mem_singleton.mp h₁ with rfl
      exact notify_good hE

theorem engInv_resolveFailure {st : EngState} {ks : List Nat} {i : Nat}
    {st' : EngState} {evs : List Ev} (hinv : EngInv st ks)
    (hrf : resolveFailure st i = some (st', evs)) :
    EngInv st' ks ∧ ∀ ev ∈ evs, evGood ks ev := by
  simp only [resolveFailure] at hrf
  split at hrf
  case isTrue hcond =>
    rw [Option.some.injEq, Prod.mk.injEq] at hrf
    obtain ⟨h₁, h₂⟩ := hrf
    have hs₁ : EngInv (setObj st
        { getObj st i with retryCount := (getObj st i).retryCount + 1,
                           status := MutationStatus.pending }) ks :=
      engInv_setObj hinv (by simp) hcond
    have hs₂ : EngInv { setObj st
        { getObj st i with retryCount := (getObj st i).retryCount + 1,
                           status := MutationStatus.pending } with
        inflightIds := (setObj st
          { getObj st i with retryCount := (getObj st i).retryCount + 1,
                             status := MutationStatus.pending
          }).inflightIds.erase i } ks :=
      engInv_sub hs₁ rfl (List.Sublist.refl _)
    obtain ⟨hp₁, hp₂, hp₃⟩ := engInv_processNext hs₂
    refine ⟨by rw [← h₁]; exact hp₁, ?_⟩
    intro ev hev
    rw [← h₂] at hev
    rcases List.mem_cons.mp hev with rfl | hev₁
    · exact notify_good hs₂
    · exact hp₃ ev hev₁
  case isFalse hcond =>
    split at hrf
    case h_1 => exact absurd hrf (by simp)
    case h_2 st₃ evs₃ hrb =>
      rw [Option.some.injEq, Prod.mk.injEq] at hrf
      obtain ⟨h₁, h₂⟩ := hrf
      have hw₁ : WEngInv (setObj st
          { getObj st i with retryCount := (getObj st i).retryCount + 1,
                             status := MutationStatus.failed }) ks :=
        wEngInv_setObj (engInv_weaken hinv) (Or.inl rfl)
      have hw₂ : WEngInv { setObj st
          { getObj st i with retryCount := (getObj st i).retryCount + 1,
                             status := MutationStatus.failed } with
          inflightIds := (setObj st
            { getObj st i with retryCount := (getObj st i).retryCount + 1,
                               status := MutationStatus.failed
            }).inflightIds.erase i } ks :=
        wEngInv_sub hw₁ rfl (List.Sublist.refl _)
      obtain ⟨hr₁, hr₂⟩ := engInv_rollback hw₂ hrb
      have hE : EngInv { st₃ with
          history := addToHistory
            { toSnapshot { getObj st i with
                retryCount := (getObj st i).retryCount + 1,
                status := MutationStatus.failed } with
              status := MutationStatus.rolledBack } st₃.history,
          queue := st₃.queue.filter fun j => j != i } ks :=
        engInv_sub hr₁ rfl (List.filter_sublist _)
      refine ⟨by rw [← h₁]; exact hE, ?_⟩
      intro ev hev
      rw [← h₂] at hev
      rcases List.mem_cons.mp hev with rfl | hev₁
      · exact notify_good_weak hw₂
      · rcases List.mem_append.mp hev₁ with h₃ | h₃
        · exact hr₂ ev h₃
        · rcases List.mem_cons.mp h₃ with rfl | h₄
          · exact notify_good hE
          · rcases List.mem_cons.mp h₄ with rfl | h₅
            · trivial
            · simp at h₅

/-- Driver-sequence sanity: committed mutations carry globally fresh ids,
an un-failed status, and a retry count within budget. -/
def goodActs : List Act → List Nat → Bool
  | [], _ => true
  | (Act.commit m) :: t, ks =>
    !(ks.contains m.id) && !(m.status == MutationStatus.failed) &&
      decide (m.retryCount ≤ m.maxRetries) && goodActs t (ks ++ [m.id])
  | (Act.ok _) :: t, ks => goodActs t ks
  | (Act.fail _) :: t, ks => goodActs t ks
  | Act.clearQ :: t, ks => goodActs t ks

/-- The ids committed by a driver sequence, in commit order. -/
def commitIds : List Act → List Nat
  | [] => []
  | (Act.commit m) :: t => m.id :: commitIds t
  | (Act.ok _) :: t => commitIds t
  | (Act.fail _) :: t => commitIds t
  | Act.clearQ :: t => commitIds t

theorem runActs_master {acts : List Act} :
    ∀ {st : EngState} {ks : List Nat} {st' : EngState} {evs : List Ev},
    EngInv st ks → goodActs acts ks = true →
    runActs st acts = some (st', evs) →
    EngInv st' (ks ++ commitIds acts) ∧
    ∀ ev ∈ evs, evGood (ks ++ commitIds acts) ev := by
  induction acts with
  | nil =>
    intro st ks st' evs hinv _ hrun
    simp only [runActs, Option.some.injEq, Prod.mk.injEq] at hrun
    obtain ⟨h₁, h₂⟩ := hrun
    have hks : ks ++ commitIds [] = ks := by simp [commitIds]
    constructor
    · rw [hks, ← h₁]
      exact hinv
    · intro ev hev
      rw [← h₂] at hev
      simp at hev
  | cons a t ih =>
    intro st ks st' evs hinv hgood hrun
    cases a with
    | commit m =>
      rw [goodActs, Bool.and_eq_true, Bool.and_eq_true, Bool.and_eq_true]
        at hgood
      obtain ⟨⟨⟨hf, hs⟩, hb⟩, hg⟩ := hgood
      have hf' : m.id ∉ ks := by simpa using hf
      have hs' : m.status ≠ MutationStatus.failed := by simpa using hs
      have hb' : m.retryCount ≤ m.maxRetries := of_decide_eq_true hb
      simp only [runActs] at hrun
      split at hrun
      case h_1 => exact absurd hrun (by simp)
      case h_2 st₂ evs₂ hrun₂ =>
        rw [Option.some.injEq, Prod.mk.injEq] at hrun
        obtain ⟨h₁, h₂⟩ := hrun
        obtain ⟨he₁, he₂⟩ := engInv_enqueue hinv hf' hs' hb'
        obtain ⟨hi₁, hi₂⟩ := ih he₁ hg hrun₂
        have hks : ks ++ commitIds (Act.commit m :: t)
            = (ks ++ [m.id]) ++ commitIds t := by simp [commitIds]
        constructor
        · rw [hks, ← h₁]
          exact hi₁
        · intro ev hev
          rw [← h₂] at hev
          rw [hks]
          rcases List.mem_append.mp hev with h₃ | h₃
          · exact evGood_mono (he₂ ev h₃) (List.sublist_append_left _ _)
          · exact hi₂ ev h₃
    | ok i =>
      rw [goodActs] at hgood
      simp only [runActs] at hrun
      split at hrun
      case h_1 => exact absurd hrun (by simp)
      case h_2 st₂ evs₂ hrun₂ =>
        rw [Option.some.injEq, Prod.mk.injEq] at hrun
        obtain ⟨h₁, h₂⟩ := hrun
        obtain ⟨he₁, he₂⟩ := engInv_resolveSuccess i hinv
        obtain ⟨hi₁, hi₂⟩ := ih he₁ hgood hrun₂
        have hks : ks ++ commitIds (Act.ok i :: t) = ks ++ commitIds t := rfl
        constructor
        · rw [hks, ← h₁]
          exact hi₁
        · intro ev hev
          rw [← h₂] at hev
          rw [hks]
          rcases List.mem_append.mp hev with h₃ | h₃
          · exact evGood_mono (he₂ ev h₃) (List.sublist_append_left _ _)
          · exact hi₂ ev h₃
    | fail i =>
      rw [goodActs] at hgood
      cases hstep : resolveFailure st i with
      | none =>
        simp only [runActs, hstep] at hrun
        exact absurd hrun (by simp)
      | some p =>
        obtain ⟨st₁, evs₁⟩ := p
        simp only [runActs, hstep] at hrun
        cases hrun₂ : runActs st₁ t with
        | none =>
          simp only [hrun₂] at hrun
          exact absurd hrun (by simp)
        | some q =>
          obtain ⟨st₂, evs₂⟩ := q
          simp only [hrun₂, Option.some.injEq, Prod.mk.injEq] at hrun
          obtain ⟨h₁, h₂⟩ := hrun
          obtain ⟨he₁, he₂⟩ := engInv_resolveFailure hinv hstep
          obtain ⟨hi₁, hi₂⟩ := ih he₁ hgood hrun₂
          have hks : ks ++ commitIds (Act.fail i :: t) = ks ++ commitIds t :=
            rfl
          constructor
          · rw [hks, ← h₁]
            exact hi₁
          · intro ev hev
            rw [← h₂] at hev
            rw [hks]
            rcases List.mem_append.mp hev with h₃ | h₃
            · exact evGood_mono (he₂ ev h₃) (List.sublist_append_left _ _)
            · exact hi₂ ev h₃
    | clearQ =>
      rw [goodActs] at hgood
      simp only [runActs] at hrun
      split at hrun
      case h_1 => exact absurd hrun (by simp)
      case h_2 st₂ evs₂ hrun₂ =>
        rw [Option.some.injEq, Prod.mk.injEq] at hrun
        obtain ⟨h₁, h₂⟩ := hrun
        obtain ⟨he₁, he₂⟩ := engInv_clear hinv
        obtain ⟨hi₁, hi₂⟩ := ih he₁ hgood hrun₂
        have hks : ks ++ commitIds (Act.clearQ :: t) = ks ++ commitIds t := rfl
        constructor
        · rw [hks, ← h₁]
          exact hi₁
        · intro ev hev
          rw [← h₂] at hev
          rw [hks]
          rcases List.mem_append.mp hev with h₃ | h₃
          · exact evGood_mono (he₂ ev h₃) (List.sublist_append_left _ _)
          · exact hi₂ ev h₃

-- ============================================================
-- Concrete fixtures for witnesses and counterexamples
-- ============================================================

def vEmpty : JVal := .obj .nil

def v0w : JVal := .obj (.cons ['a'] (.atom 1) .nil)

def v1w : JVal := .obj (.cons ['a'] (.atom 1) (.cons ['b'] (.atom 2) .nil))

def v2w : JVal :=
  .obj (.cons ['a'] (.atom 1) (.cons ['b'] (.atom 2)
    (.cons ['c'] (.atom 3) .nil)))

def pAddB : Patch := ⟨.add, [['b']], .atom 2⟩

def pRemB : Patch := ⟨.remove, [['b']], .atom 0⟩

def pAddC : Patch := ⟨.add, [['c']], .atom 3⟩

def pRemC : Patch := ⟨.remove, [['c']], .atom 0⟩

def fW : Mutation :=
  { id := 1, timestamp := 1, status := .inflight,
    storePatches := [(0, ⟨[pAddB], [pRemB]⟩)], affectedPaths := [],
    retryCount := 1, maxRetries := 0 }

def mW : Mutation :=
  { id := 2, timestamp := 2, status := .inflight,
    storePatches := [(0, ⟨[pAddC], [pRemC]⟩)], affectedPaths := [],
    retryCount := 0, maxRetries := 0 }

/-- The store-resolution base of `Transaction.set` (source lines 344-347):
the staged working state if present, otherwise the store's current value. -/
def workingBase (tx : TxState) (σ : Stores) (s : Nat) : JVal :=
  match tx.workingStates.lookup s with
  | some w => w
  | none => σ s

theorem txSet_empty_recipe (tx : TxState) (σ : Stores) (target : Option Nat)
    (flush : Bool) (recipe : List Cmd) (s : Nat) (next : JVal)
    (is : List Patch)
    (hs : target = some s ∨ (target = none ∧ tx.defaultStore = some s))
    (hc : tx.committed = false)
    (hp : produceWithPatches (workingBase tx σ s) recipe
      = some (next, [], is)) :
    txSet tx σ target flush recipe = Except.ok (tx, σ) := by
  rcases hs with rfl | ⟨rfl, hd⟩
  · cases hl : tx.workingStates.lookup s with
    | some w =>
      simp only [workingBase, hl] at hp
      simp [txSet, hc, hl, hp]
    | none =>
      simp only [workingBase, hl] at hp
      simp [txSet, hc, hl, hp]
  · cases hl : tx.workingStates.lookup s with
    | some w =>
      simp only [workingBase, hl] at hp
      simp [txSet, hd, hc, hl, hp]
    | none =>
      simp only [workingBase, hl] at hp
      simp [txSet, hd, hc, hl, hp]

theorem txCommit_empty (tx : TxState) (σ : Stores) (idn ts mr : Nat)
    (hc : tx.committed = false) (hr : tx.records = []) :
    txCommit tx σ idn ts mr = Except.error TxError.emptyTransaction := by
  simp [txCommit, hc, hr]

-- ============================================================
-- Claim theorems
-- ============================================================

/-- C10: `hasPending` is true exactly when some live mutation has status
`pending` or `in-flight`; a live `failed` (mid-rollback) mutation does not
count. -/
theorem hasPending_iff (st : EngState) :
    hasPending st = true ↔
    ∃ i ∈ st.queue, (getObj st i).status = MutationStatus.pending ∨
      (getObj st i).status = MutationStatus.inflight := by
  simp [hasPending]

/-- C9: a `set` whose recipe produces zero patches stages no record and
changes no store and no working state (the transaction and store bank are
returned unchanged); a commit on a transaction with no staged records
fails with `EmptyTransaction`, creating no mutation. -/
theorem empty_recipe_set_and_commit :
    (∀ (tx : TxState) (σ : Stores) (target : Option Nat) (flush : Bool)
       (recipe : List Cmd) (s : Nat) (next : JVal) (is : List Patch),
       (target = some s ∨ (target = none ∧ tx.defaultStore = some s)) →
       tx.committed = false →
       produceWithPatches (workingBase tx σ s) recipe = some (next, [], is) →
       txSet tx σ target flush recipe = Except.ok (tx, σ)) ∧
    (∀ (tx : TxState) (σ : Stores) (idn ts mr : Nat),
       tx.committed = false → tx.records = [] →
       txCommit tx σ idn ts mr = Except.error TxError.emptyTransaction) :=
  ⟨txSet_empty_recipe, txCommit_empty⟩

def tx9 : TxState := newTx (some 0)

/-- C9 witness: a same-value write stages nothing, and committing the
still-empty transaction fails with `EmptyTransaction`. -/
theorem empty_recipe_set_and_commit_witness :
    txSet tx9 (fun _ => v0w) none false [Cmd.setPath [['a']] (.atom 1)]
      = Except.ok (tx9, fun _ => v0w) ∧
    txCommit tx9 (fun _ => v0w) 0 0 0
      = Except.error TxError.emptyTransaction :=
  ⟨empty_recipe_set_and_commit.1 tx9 (fun _ => v0w) none false
      [Cmd.setPath [['a']] (.atom 1)] 0 v0w [] (Or.inr ⟨rfl, rfl⟩) rfl rfl,
   empty_recipe_set_and_commit.2 tx9 (fun _ => v0w) 0 0 0 rfl rfl⟩

/-- C8 (amended): after a successful commit, `set` with an explicit store
and the recipe-only `set` with a default store both throw
`ClosedTransaction`; but the recipe-only `set` on a transaction without a
default store throws `NoDefaultStore`, because the source resolves the
target store before checking `_committed`. -/
theorem txSet_after_commit (tx : TxState) (σ : Stores) (s : Nat)
    (flush : Bool) (recipe : List Cmd) (hc : tx.committed = true) :
    txSet tx σ (some s) flush recipe
      = Except.error TxError.closedTransaction ∧
    (tx.defaultStore = some s →
      txSet tx σ none flush recipe
        = Except.error TxError.closedTransaction) ∧
    (tx.defaultStore = none →
      txSet tx σ none flush recipe = Except.error TxError.noDefaultStore) := by
  refine ⟨?_, ?_, ?_⟩
  · simp [txSet, hc]
  · intro hd
    simp [txSet, hd, hc]
  · intro hd
    simp [txSet, hd]

def txC8 : TxState :=
  { records := [], workingStates := [], hasRemoteFn := true,
    committed := true, defaultStore := none }

/-- C8 counterexample: on a committed transaction without a default store,
the recipe-only `set` throws `NoDefaultStore`, not `ClosedTransaction`. -/
theorem txSet_after_commit_counterexample :
    txSet txC8 (fun _ => vEmpty) none false []
      = Except.error TxError.noDefaultStore ∧
    TxError.noDefaultStore ≠ TxError.closedTransaction :=
  ⟨rfl, by decide⟩

def txC8d : TxState :=
  { records := [], workingStates := [], hasRemoteFn := true,
    committed := true, defaultStore := some 0 }

/-- C8 witness: both store-resolving forms of `set` on a committed
transaction with a default store throw `ClosedTransaction`. -/
theorem txSet_after_commit_witness :
    txSet txC8d (fun _ => vEmpty) (some 0) false []
      = Except.error TxError.closedTransaction ∧
    txSet txC8d (fun _ => vEmpty) none false []
      = Except.error TxError.closedTransaction :=
  ⟨(txSet_after_commit txC8d (fun _ => vEmpty) 0 false [] rfl).1,
   (txSet_after_commit txC8d (fun _ => vEmpty) 0 false [] rfl).2.1 rfl⟩

/-- C5 (amended): after `clear()`, a late resolution of an in-flight
remote function cannot touch the (now empty) live queue, but it is not
ignored: it appends a success snapshot to the emptied history and fires
the success callback. -/
theorem clear_late_completion (st : EngState) (i : Nat) :
    (resolveSuccess (clear st).1 i).1.queue = [] ∧
    (resolveSuccess (clear st).1 i).1.history
      = [toSnapshot { getObj st i with status := MutationStatus.success }] ∧
    (resolveSuccess (clear st).1 i).2
      = [notifyEv (resolveSuccess (clear st).1 i).1,
         Ev.success
           (toSnapshot { getObj st i with
             status := MutationStatus.success })] :=
  ⟨rfl, rfl, rfl⟩

def m5 : Mutation :=
  { id := 7, timestamp := 1, status := .pending,
    storePatches := [(0, ⟨[pAddB], [pRemB]⟩)], affectedPaths := [],
    retryCount := 0, maxRetries := 0 }

/-- C5 counterexample: commit, clear, then the remote function resolves;
the cleared history receives a success snapshot and the success callback
fires — the late completion is not ignored. -/
theorem clear_late_completion_counterexample :
    ((runActs (initSt (fun _ => v0w))
        [Act.commit m5, Act.clearQ, Act.ok 7]).map
      fun r => (r.1.history.map fun sn => (sn.id, sn.status),
        (r.2.filter fun ev =>
          match ev with
          | Ev.success _ => true
          | _ => false).length))
      = some ([(7, MutationStatus.success)], 1) := by decide

def pAddN : Patch := ⟨.add, [['n']], .atom 1⟩

def pRemN : Patch := ⟨.remove, [['n']], .atom 0⟩

def pRepN2 : Patch := ⟨.replace, [['n']], .atom 2⟩

def pRepN1 : Patch := ⟨.replace, [['n']], .atom 1⟩

def m1C4 : Mutation :=
  { id := 1, timestamp := 1, status := .pending,
    storePatches := [(0, ⟨[pAddN], [pRemN]⟩), (1, ⟨[pAddN], [pRemN]⟩)],
    affectedPaths := [], retryCount := 0, maxRetries := 0 }

def m2C4 : Mutation :=
  { id := 2, timestamp := 2, status := .pending,
    storePatches := [(0, ⟨[pRepN2], [pRepN1]⟩), (1, ⟨[pRepN2], [pRepN1]⟩)],
    affectedPaths := [], retryCount := 0, maxRetries := 0 }

def σ4 : Stores := fun _ => JVal.obj (JObj.cons ['n'] (JVal.atom 2) JObj.nil)

/-- C4: mutation 2 touches two stores and its redo fails in both during
the rollback of mutation 1; it leaves the live queue once but the history
receives TWO `rolled-back` snapshots for it (one per failing store) — the
redo loop of `rollback` calls `addToHistory` once per store, so "exactly
one snapshot per retired mutation" is violated. -/
theorem rollback_history_duplicate :
    ((runActs (initSt σ4)
        [Act.commit m1C4, Act.commit m2C4, Act.fail 1]).map
      fun r => (r.1.history.map fun sn => (sn.id, sn.status), r.1.queue))
      = some ([(1, MutationStatus.rolledBack), (2, MutationStatus.rolledBack),
               (2, MutationStatus.rolledBack)], []) := by decide

def m6 : Mutation :=
  { id := 6, timestamp := 1, status := .pending,
    storePatches := [(0, ⟨[pAddB], [pRemB]⟩)], affectedPaths := [],
    retryCount := 0, maxRetries := 0 }

/-- C6 counterexample: at the notification emitted right after a terminal
failure is marked (before the rollback's queue filter), the failed
mutation is still live with `retryCount = maxRetries + 1`, so a notify
with a live mutation over budget is observable. -/
theorem notify_retry_counterexample :
    ((runActs (initSt (fun _ => v1w)) [Act.commit m6, Act.fail 6]).map
      fun r => r.2.any fun ev =>
        match ev with
        | Ev.notify live _ => live.any fun m => m.maxRetries < m.retryCount
        | _ => false) = some true := by decide

theorem engInv_init (σ : Stores) : EngInv (initSt σ) [] := by
  refine ⟨rfl, ?_, List.Sublist.refl _, ?_⟩
  · intro kv h
    simp [initSt] at h
  · intro i h
    simp [initSt] at h

/-- C6 (amended): at every notification of a well-formed run, every live
mutation whose status is not `failed` satisfies
`retryCount ≤ maxRetries`; the one exception to the claimed invariant is
the already-failed mutation that is still live at the notification
emitted just before its rollback. -/
theorem runActs_notify_retry_bound (σ : Stores) (acts : List Act)
    (st : EngState) (evs : List Ev)
    (hgood : goodActs acts [] = true)
    (hrun : runActs (initSt σ) acts = some (st, evs)) :
    ∀ live hist, Ev.notify live hist ∈ evs →
      ∀ m ∈ live, m.status ≠ MutationStatus.failed →
        m.retryCount ≤ m.maxRetries := by
  obtain ⟨_, hev⟩ := runActs_master (engInv_init σ) hgood hrun
  intro live hist hmem m hm hs
  exact (hev _ hmem).1 m hm hs

/-- C6 witness: the amended bound holds on a run that exercises the
terminal-failure path. -/
theorem runActs_notify_retry_bound_witness :
    ∃ st evs, runActs (initSt (fun _ => v1w)) [Act.commit m6, Act.fail 6]
      = some (st, evs) ∧
    ∀ live hist, Ev.notify live hist ∈ evs →
      ∀ m ∈ live, m.status ≠ MutationStatus.failed →
        m.retryCount ≤ m.maxRetries := by
  rcases hrun : runActs (initSt (fun _ => v1w)) [Act.commit m6, Act.fail 6]
    with _ | ⟨st, evs⟩
  · exact Option.noConfusion hrun
  · exact ⟨st, evs, rfl,
      runActs_notify_retry_bound _ _ st evs (by decide) hrun⟩

/-- C7: every notification carries exactly the live snapshots in enqueue
order followed by the history snapshots newest-first; and across any
well-formed run, the live ids in every notification form a subsequence of
the committed ids in commit order. -/
theorem notify_payload_commit_order :
    (∀ st : EngState, notifyPayload (notifyEv st)
      = (liveMuts st).map toSnapshot ++ st.history) ∧
    ∀ (σ : Stores) (acts : List Act) (st : EngState) (evs : List Ev),
      goodActs acts [] = true →
      runActs (initSt σ) acts = some (st, evs) →
      ∀ live hist, Ev.notify live hist ∈ evs →
        List.Sublist (live.map Mutation.id) (commitIds acts) := by
  refine ⟨fun st => rfl, ?_⟩
  intro σ acts st evs hgood hrun live hist hmem
  obtain ⟨_, hev⟩ := runActs_master (engInv_init σ) hgood hrun
  have h := (hev _ hmem).2
  simpa using h

def m7a : Mutation :=
  { id := 3, timestamp := 1, status := .pending,
    storePatches := [(0, ⟨[pAddB], [pRemB]⟩)], affectedPaths := [],
    retryCount := 0, maxRetries := 0 }

def m7b : Mutation :=
  { id := 4, timestamp := 2, status := .pending,
    storePatches := [(0, ⟨[pAddC], [pRemC]⟩)], affectedPaths := [],
    retryCount := 0, maxRetries := 0 }

/-- C7 witness: payload shape at a concrete state, and commit-order ids
on a concrete two-commit run. -/
theorem notify_payload_commit_order_witness :
    notifyPayload (notifyEv (initSt σ4))
      = (liveMuts (initSt σ4)).map toSnapshot ++ (initSt σ4).history ∧
    ∃ st evs, runActs (initSt (fun _ => v0w))
        [Act.commit m7a, Act.commit m7b] = some (st, evs) ∧
      ∀ live hist, Ev.notify live hist ∈ evs →
        List.Sublist (live.map Mutation.id)
          (commitIds [Act.commit m7a, Act.commit m7b]) := by
  refine ⟨notify_payload_commit_order.1 _, ?_⟩
  rcases hrun : runActs (initSt (fun _ => v0w))
      [Act.commit m7a, Act.commit m7b] with _ | ⟨st, evs⟩
  · exact Option.noConfusion hrun
  · exact ⟨st, evs, rfl, fun live hist hmem =>
      notify_payload_commit_order.2 _ _ st evs (by decide) hrun live hist hmem⟩

/-- C2: when a mutation `f` terminally fails as the only live mutation,
`resolveFailure` succeeds, restores every store of the bank to its
pre-`f` value through `f`'s recorded inverse patches, and empties the
live queue. -/
theorem failure_restores_stores (f : Mutation) (σ σpre : Stores)
    (hist : List MutationSnapshot) (infl : List Nat)
    (hkeys : (mutKeys f).Nodup)
    (hretry : f.maxRetries ≤ f.retryCount)
    (hinv : ∀ s e, f.storePatches.lookup s = some e →
      applyPatches (σ s) e.inversePatches = some (σpre s))
    (hout : ∀ s, f.storePatches.lookup s = none → σpre s = σ s) :
    ∃ st₁ evs,
      resolveFailure
        { queue := [f.id], inflightIds := infl, history := hist,
          stores := σ, objects := [(f.id, f)] } f.id = some (st₁, evs) ∧
      (∀ s, st₁.stores s = σpre s) ∧ st₁.queue = [] :=
  resolveFailure_single_restores f σ σpre hist infl hkeys hretry hinv hout

def σC2 : Stores := fun s => if s = 0 then v1w else v0w

def σpreC2 : Stores := fun _ => v0w

/-- C2 witness: a single failing mutation restores the store it touched
and leaves the others alone. -/
theorem failure_restores_stores_witness :
    ∃ st₁ evs,
      resolveFailure
        { queue := [fW.id], inflightIds := [], history := [],
          stores := σC2, objects := [(fW.id, fW)] } fW.id = some (st₁, evs) ∧
      (∀ s, st₁.stores s = σpreC2 s) ∧ st₁.queue = [] := by
  refine failure_restores_stores fW σC2 σpreC2 [] [] ?_ ?_ ?_ ?_
  · decide
  · decide
  · intro s e he
    by_cases h : s = 0
    · subst h
      injection he with h₁
      rw [← h₁]
      rfl
    · rw [show fW.storePatches
        = [(0, (⟨[pAddB], [pRemB]⟩ : StorePatchEntry))] from rfl,
        lookup_cons_ne h] at he
      exact absurd he (by simp [List.lookup])
  · intro s h
    by_cases hs : s = 0
    · subst hs
      exact absurd h (by decide)
    · show σpreC2 s = σC2 s
      show v0w = if s = 0 then v1w else v0w
      rw [if_neg hs]

/-- C3: during the rollback of a failed mutation `f`, a surviving
mutation `m` is collected as a redo failure — and hence marked failed,
recorded as rolled-back and dropped from the queue — exactly when
applying `m`'s recorded forward patches (reused verbatim) at `m`'s
position in the oldest-first redo sweep over the post-undo store value
fails. -/
theorem storeRebase_retires_iff (f m : Mutation) (A B : List Mutation)
    (s : Nat) (σn v₁ v₂ : JVal)
    (hA : m ∉ A) (hB : m ∉ B)
    (hundo : undoRemaining s σn ((A ++ m :: B).reverse) = some v₁)
    (hfinv : f.storePatches.lookup s = none ∧ v₂ = v₁ ∨
      ∃ e, f.storePatches.lookup s = some e ∧
        applyPatches v₁ e.inversePatches = some v₂) :
    storeRebase f ((A ++ m :: B).reverse) s σn
      = some (redoRemaining s v₂ (A ++ m :: B)) ∧
    (m ∈ (redoRemaining s v₂ (A ++ m :: B)).2 ↔
      ∃ e, m.storePatches.lookup s = some e ∧
        applyPatches ((redoRemaining s v₂ A).1) e.patches = none) := by
  constructor
  · rcases hfinv with ⟨hl, rfl⟩ | ⟨e, hl, ha⟩
    · simp only [storeRebase, hundo, hl, List.reverse_reverse]
    · simp only [storeRebase, hundo, hl, ha, List.reverse_reverse]
  · exact redo_mem_fails_iff s v₂ A B m hA hB

/-- C3 witness: a survivor whose forward patches re-apply cleanly is not
collected as a redo failure. -/
theorem storeRebase_retires_iff_witness :
    storeRebase fW (([] ++ mW :: []).reverse) 0 v2w
      = some (redoRemaining 0 v0w ([] ++ mW :: [])) ∧
    (mW ∈ (redoRemaining 0 v0w ([] ++ mW :: [])).2 ↔
      ∃ e, mW.storePatches.lookup 0 = some e ∧
        applyPatches ((redoRemaining 0 v0w ([] : List Mutation)).1) e.patches
          = none) := by
  refine storeRebase_retires_iff fW mW [] [] 0 v2w v1w v0w ?_ ?_ ?_ ?_
  · decide
  · decide
  · rfl
  · exact Or.inr ⟨⟨[pAddB], [pRemB]⟩, rfl, rfl⟩

/-- C1: if mutation `f` in the committed sequence `pre ++ f :: post`
terminally fails while the others are live, the failure continuation
succeeds and leaves every store holding the value obtained by committing
only `pre ++ post` in order (with `f` never committed); and a success
resolution never changes any store value, so the others' later successes
preserve this. The affected-path sets are pairwise non-conflicting
between `f` and the survivors (`hasPathConflict = false`), no patch
addresses a store root, and each inverse patch path mirrors a forward
patch path, as immer-produced patches do. -/
theorem rebase_correctness (pre post : List Mutation) (f : Mutation)
    (σ0 σ : Stores) (hist : List MutationSnapshot) (infl : List Nat)
    (hwf0 : ∀ s, JVal.wfB (σ0 s) = true)
    (hids : ((pre ++ f :: post).map Mutation.id).Nodup)
    (hts : List.Pairwise (fun a b => a.timestamp < b.timestamp)
      (pre ++ f :: post))
    (hlive : ∀ m ∈ pre ++ post, m.status ≠ MutationStatus.failed)
    (hretry : f.maxRetries ≤ f.retryCount)
    (hfw : MutWF f)
    (hmw : ∀ m ∈ pre ++ post, MutWF m)
    (hpne : ∀ m ∈ f :: (pre ++ post), ∀ p ∈ mutAllPatches m, p.path ≠ [])
    (hmirror : ∀ m ∈ f :: (pre ++ post), ∀ q ∈ mutAllPatches m,
      ∃ p ∈ fwdPatches m, q.path = p.path)
    (hconf : ∀ m ∈ pre ++ post,
      hasPathConflict (extractAffectedPaths (fwdPatches f))
        (extractAffectedPaths (fwdPatches m)) = false)
    (hchain : ∀ s, StoreChainInv s (σ0 s) (pre ++ f :: post) (σ s)) :
    (∃ st₁ evs,
      resolveFailure
        { queue := (pre ++ f :: post).map Mutation.id, inflightIds := infl,
          history := hist, stores := σ,
          objects := (pre ++ f :: post).map fun m => (m.id, m) } f.id
        = some (st₁, evs) ∧
      (∀ s, storeChainApply s (σ0 s) (pre ++ post) = some (st₁.stores s)) ∧
      st₁.queue = (pre ++ post).map Mutation.id) ∧
    ∀ (st : EngState) (j : Nat), (resolveSuccess st j).1.stores = st.stores :=
  ⟨resolveFailure_scenario pre post f σ0 σ hist infl hwf0 hids hts hlive
    hretry hfw hmw hpne hmirror hconf hchain, fun _ _ => rfl⟩

def σ0W : Stores := fun _ => v0w

def σW : Stores := fun s => if s = 0 then v2w else v0w

/-- C1 witness: a two-mutation chain on one store; the first terminally
fails and the rebase leaves the store as if only the second had been
committed. -/
theorem rebase_correctness_witness :
    (∃ st₁ evs,
      resolveFailure
        { queue := ([] ++ fW :: [mW]).map Mutation.id, inflightIds := [],
          history := [], stores := σW,
          objects := ([] ++ fW :: [mW]).map fun m : Mutation => (m.id, m) }
        fW.id
        = some (st₁, evs) ∧
      (∀ s, storeChainApply s (σ0W s) ([] ++ [mW]) = some (st₁.stores s)) ∧
      st₁.queue = ([] ++ [mW]).map Mutation.id) ∧
    ∀ (st : EngState) (j : Nat), (resolveSuccess st j).1.stores = st.stores := by
  refine rebase_correctness [] [mW] fW σ0W σW [] [] ?_ ?_ ?_ ?_ ?_ ?_ ?_ ?_
    ?_ ?_ ?_
  · intro s
    rfl
  · decide
  · decide
  · decide
  · decide
  · show ∀ p ∈ mutAllPatches fW, JVal.wfB p.value = true
    decide
  · intro m hm
    rcases List.mem_singleton.mp (by simpa using hm) with rfl
    show ∀ p ∈ mutAllPatches mW, JVal.wfB p.value = true
    decide
  · decide
  · decide
  · decide
  · intro s
    by_cases h : s = 0
    · subst h
      show StoreChainInv 0 (σ0W 0) ([] ++ fW :: [mW]) (σW 0)
      exact ⟨v1w, rfl, rfl, v2w, rfl, rfl, rfl⟩
    · have hlf : List.lookup s fW.storePatches = none := by
        rw [show fW.storePatches
          = [(0, (⟨[pAddB], [pRemB]⟩ : StorePatchEntry))] from rfl,
          lookup_cons_ne h]
        rfl
      have hlm : List.lookup s mW.storePatches = none := by
        rw [show mW.storePatches
          = [(0, (⟨[pAddC], [pRemC]⟩ : StorePatchEntry))] from rfl,
          lookup_cons_ne h]
        rfl
      show StoreChainInv s (σ0W s) ([] ++ fW :: [mW]) (σW s)
      simp only [List.nil_append, StoreChainInv, hlf, hlm]
      show (if s = 0 then v2w else v0w) = v0w
      rw [if_neg h]
